import Mathlib

/-!
# Formal model of the MPVRP-CC OR-Tools solver

Shallow embedding of `src/mpvrpcc_ortools_new.py`.

Modelling conventions:
* Quantities (demand, stock, capacity, load) and coordinates are rationals
  (every Python float value is a rational number; the solver only adds,
  subtracts and compares these values).
* Python dicts become association lists; `dict.get(k, 0)` becomes `dget`.
* Euclidean distances are real numbers (`Real.sqrt`); the solver proper is
  parameterized by the distance function it consumes, since it only compares
  and sums distances.
* The external OR-Tools routing search is modelled as an abstract oracle
  parameter returning, per available vehicle, a list of visited stations,
  or `none` (failure, triggering the greedy fallback) — exactly the contract
  the code extracts from `routing.SolveWithParameters`.
-/

namespace MPVRPCC

/-- Python `dict.get(k, 0)` over an association list (first binding wins,
as in a dict, whose keys are unique). -/
def dget (m : List (ℕ × ℚ)) (k : ℕ) : ℚ :=
  ((m.find? (fun kv => kv.1 == k)).map Prod.snd).getD 0

/-- `LocationType`: the three location categories (the Python class holds the
string constants "garage", "depot", "station"). -/
inductive LocationType where
  | garage
  | depot
  | station
deriving DecidableEq, Repr

/-- `Location` dataclass: id, coordinates, display name. -/
structure Location where
  id : ℕ
  x : ℚ
  y : ℚ
  name : String := ""
deriving DecidableEq, Repr

/-- `Truck` dataclass. -/
structure Truck where
  id : ℕ
  capacity : ℚ
  garage_id : ℕ
  initial_product : ℕ := 0
deriving DecidableEq, Repr

/-- `Depot` dataclass: per-product stock as an association list. -/
structure Depot where
  id : ℕ
  location : Location
  stock : List (ℕ × ℚ)
deriving DecidableEq, Repr

/-- `Station` dataclass: per-product demand as an association list. -/
structure Station where
  id : ℕ
  location : Location
  demand : List (ℕ × ℚ)
deriving DecidableEq, Repr

/-- `MiniRoute` dataclass: one depot visit for one product. -/
structure MiniRoute where
  depot_id : ℕ
  product_id : ℕ
  load_quantity : ℚ
  stations : List (ℕ × ℚ)
deriving DecidableEq, Repr

/-- `CompleteRoute` dataclass: one truck's full trip. -/
structure CompleteRoute where
  truck_id : ℕ
  garage_id : ℕ
  mini_routes : List MiniRoute
  total_distance : ℚ := 0
  total_changeover_cost : ℚ := 0
  total_cost : ℚ := 0
deriving DecidableEq, Repr

/-- `MPVRPCCInstance`: the instance model.  The `products` set and the
distance cache of the Python class are derived / modelled separately. -/
structure MPVRPCCInstance where
  garages : List Location
  depots : List Depot
  stations : List Station
  trucks : List Truck
  changeover_costs : List ((ℕ × ℕ) × ℚ)
deriving DecidableEq, Repr

/-- The instance's product set (`self.products`): union of all stock and
demand keys, as maintained by `add_depot` / `add_station`. -/
def productsOf (inst : MPVRPCCInstance) : List ℕ :=
  ((inst.depots.map (fun d => d.stock.map Prod.fst)).flatten
    ++ (inst.stations.map (fun s => s.demand.map Prod.fst)).flatten).dedup

/-- `get_changeover_cost`: 0 on equal products, else table lookup defaulting
to 0. -/
def get_changeover_cost (inst : MPVRPCCInstance) (fromP toP : ℕ) : ℚ :=
  if fromP = toP then 0
  else ((inst.changeover_costs.find? (fun kv => kv.1 == (fromP, toP))).map
          Prod.snd).getD 0

/-- The per-product total station demand (the entries of
`get_total_demand()`). -/
def totalDemand (inst : MPVRPCCInstance) (p : ℕ) : ℚ :=
  (inst.stations.map (fun s => dget s.demand p)).sum

/-- The keys of the `get_total_demand()` dict: every product appearing in
some station's demand dict, in first-appearance order. -/
def demandProducts (inst : MPVRPCCInstance) : List ℕ :=
  ((inst.stations.map (fun s => s.demand.map Prod.fst)).flatten).dedup

/-- Per-product total depot stock (`sum(d.stock.get(product, 0) ...)`). -/
def totalStock (inst : MPVRPCCInstance) (p : ℕ) : ℚ :=
  (inst.depots.map (fun d => dget d.stock p)).sum

/-- Total truck capacity (`sum(t.capacity for t in self.trucks)`). -/
def totalCapacity (inst : MPVRPCCInstance) : ℚ :=
  (inst.trucks.map Truck.capacity).sum

/-- `max(total_demand.values()) if total_demand else 0`. -/
def maxDemandValue (inst : MPVRPCCInstance) : ℚ :=
  match (demandProducts inst).map (totalDemand inst) with
  | [] => 0
  | v :: vs => vs.foldl max v

/-- The error strings appended by `validate_instance`, as structured tags. -/
inductive InstanceError where
  | noGarage
  | noDepot
  | noStation
  | noTruck
  | insufficientStock (product : ℕ)
  | insufficientCapacity
deriving DecidableEq, Repr

/-- `validate_instance`: appends one error per failed check, in code order,
and returns `(errors is empty, errors)`.  It is a total function (the code
path contains no raising operation: `max` is guarded by the emptiness test). -/
def validate_instance (inst : MPVRPCCInstance) : Bool × List InstanceError :=
  let e1 := if inst.garages = [] then [InstanceError.noGarage] else []
  let e2 := if inst.depots = [] then [InstanceError.noDepot] else []
  let e3 := if inst.stations = [] then [InstanceError.noStation] else []
  let e4 := if inst.trucks = [] then [InstanceError.noTruck] else []
  let stockErrs := (demandProducts inst).filterMap (fun p =>
    if totalStock inst p < totalDemand inst p
    then some (InstanceError.insufficientStock p) else none)
  let capErr := if totalCapacity inst < maxDemandValue inst
    then [InstanceError.insufficientCapacity] else []
  let errors := e1 ++ e2 ++ e3 ++ e4 ++ stockErrs ++ capErr
  (errors.isEmpty, errors)

/-- The spec's invalidity condition for an instance, stated in the claim's
own terms (quantifying over the instance's product set, and taking the
largest per-product total demand over that set). -/
def instanceInvalidSpec (inst : MPVRPCCInstance) : Prop :=
  inst.garages = [] ∨ inst.depots = [] ∨ inst.stations = [] ∨
    inst.trucks = [] ∨
    (∃ p ∈ productsOf inst, totalStock inst p < totalDemand inst p) ∨
    totalCapacity inst < ((productsOf inst).map (totalDemand inst)).foldl max 0

/-! ## Geometry and cost model

`_get_location` resolves an id with `next(x for x in xs if x.id == id)`;
a missing id exhausts the generator and `next` raises `StopIteration`.
In Python's exception hierarchy `StopIteration` derives directly from
`Exception`; it is *not* a `LookupError` (whose subclasses are `IndexError`
and `KeyError`).  An unknown location-type string raises `ValueError`; with
`LocationType` as an inductive type that branch is unrepresentable (call
sites only ever pass the three class constants). -/

/-- The Python exception classes relevant to the geometry code. -/
inductive PyError where
  | stopIteration
  | valueError
  | lookupError
deriving DecidableEq, Repr

/-- `_get_location`: first matching entry of the category's list, else the
`StopIteration` raised by `next` on an exhausted generator. -/
def _get_location (inst : MPVRPCCInstance) (loc_type : LocationType)
    (loc_id : ℕ) : Except PyError Location :=
  match loc_type with
  | .garage =>
    match inst.garages.find? (fun g => g.id == loc_id) with
    | some g => .ok g
    | none => .error .stopIteration
  | .depot =>
    match inst.depots.find? (fun d => d.id == loc_id) with
    | some d => .ok d.location
    | none => .error .stopIteration
  | .station =>
    match inst.stations.find? (fun s => s.id == loc_id) with
    | some s => .ok s.location
    | none => .error .stopIteration

/-- Key of the distance cache (`self.distance_matrix`). -/
abbrev DistKey := LocationType × ℕ × LocationType × ℕ

/-- Dict membership/lookup in the distance cache. -/
def cacheLookup (cache : List (DistKey × ℝ)) (k : DistKey) : Option ℝ :=
  (cache.find? (fun kv => kv.1 == k)).map Prod.snd

/-- The Euclidean distance `math.sqrt((x1-x2)**2 + (y1-y2)**2)`. -/
noncomputable def euclid (l1 l2 : Location) : ℝ :=
  Real.sqrt (((l1.x - l2.x) ^ 2 + (l1.y - l2.y) ^ 2 : ℚ) : ℝ)

/-- `distance`: cached value if the key is present, otherwise resolve both
locations, compute the Euclidean distance, and store it under both orderings
of the key.  The cache (`self.distance_matrix`) is threaded explicitly. -/
noncomputable def distance (inst : MPVRPCCInstance)
    (cache : List (DistKey × ℝ)) (t1 : LocationType) (i1 : ℕ)
    (t2 : LocationType) (i2 : ℕ) :
    Except PyError (ℝ × List (DistKey × ℝ)) :=
  match cacheLookup cache (t1, i1, t2, i2) with
  | some d => .ok (d, cache)
  | none =>
    match _get_location inst t1 i1 with
    | .error e => .error e
    | .ok loc1 =>
      match _get_location inst t2 i2 with
      | .error e => .error e
      | .ok loc2 =>
        let dist := euclid loc1 loc2
        .ok (dist,
          ((t2, i2, t1, i1), dist) :: ((t1, i1, t2, i2), dist) :: cache)

/-! ## Helper lemmas -/

theorem dget_nonneg {m : List (ℕ × ℚ)} (h : ∀ kv ∈ m, 0 ≤ kv.2) (k : ℕ) :
    0 ≤ dget m k := by
  unfold dget
  cases hf : m.find? (fun kv => kv.1 == k) with
  | none => simp
  | some kv =>
    have := List.mem_of_find?_eq_some hf
    simpa using h kv this

theorem dget_eq_zero_of_not_mem {m : List (ℕ × ℚ)} {k : ℕ}
    (h : k ∉ m.map Prod.fst) : dget m k = 0 := by
  unfold dget
  cases hf : m.find? (fun kv => kv.1 == k) with
  | none => simp
  | some kv =>
    exact absurd (List.mem_map_of_mem Prod.fst (List.mem_of_find?_eq_some hf))
      (by
        have hk := List.find?_some hf
        simp only [beq_iff_eq] at hk
        simpa [hk] using h)

theorem totalDemand_nonneg {inst : MPVRPCCInstance}
    (hdem : ∀ s ∈ inst.stations, ∀ kv ∈ s.demand, 0 ≤ kv.2) (p : ℕ) :
    0 ≤ totalDemand inst p := by
  unfold totalDemand
  refine List.sum_nonneg ?_
  intro x hx
  obtain ⟨s, hs, rfl⟩ := List.mem_map.mp hx
  exact dget_nonneg (hdem s hs) p

theorem totalStock_nonneg {inst : MPVRPCCInstance}
    (hstock : ∀ d ∈ inst.depots, ∀ kv ∈ d.stock, 0 ≤ kv.2) (p : ℕ) :
    0 ≤ totalStock inst p := by
  unfold totalStock
  refine List.sum_nonneg ?_
  intro x hx
  obtain ⟨d, hd, rfl⟩ := List.mem_map.mp hx
  exact dget_nonneg (hstock d hd) p

theorem totalCapacity_nonneg {inst : MPVRPCCInstance}
    (hcap : ∀ t ∈ inst.trucks, 0 ≤ t.capacity) :
    0 ≤ totalCapacity inst := by
  unfold totalCapacity
  refine List.sum_nonneg ?_
  intro x hx
  obtain ⟨t, ht, rfl⟩ := List.mem_map.mp hx
  exact hcap t ht

theorem demandProducts_subset_productsOf {inst : MPVRPCCInstance} {p : ℕ}
    (h : p ∈ demandProducts inst) : p ∈ productsOf inst := by
  unfold demandProducts at h
  unfold productsOf
  rw [List.mem_dedup] at h ⊢
  exact List.mem_append.mpr (Or.inr h)

theorem totalDemand_eq_zero_of_not_demandProduct {inst : MPVRPCCInstance}
    {p : ℕ} (h : p ∉ demandProducts inst) : totalDemand inst p = 0 := by
  unfold totalDemand
  rw [List.sum_eq_zero]
  intro x hx
  obtain ⟨s, hs, rfl⟩ := List.mem_map.mp hx
  refine dget_eq_zero_of_not_mem ?_
  intro hk
  refine h ?_
  unfold demandProducts
  rw [List.mem_dedup, List.mem_flatten]
  exact ⟨s.demand.map Prod.fst, List.mem_map_of_mem _ hs, hk⟩

theorem lt_foldl_max {a b : ℚ} {l : List ℚ} :
    a < l.foldl max b ↔ a < b ∨ ∃ x ∈ l, a < x := by
  induction l generalizing b with
  | nil => simp
  | cons y ys ih =>
    rw [List.foldl_cons, ih]
    constructor
    · rintro (h | ⟨x, hx, h⟩)
      · rcases lt_max_iff.mp h with h | h
        · exact Or.inl h
        · exact Or.inr ⟨y, List.mem_cons_self _ _, h⟩
      · exact Or.inr ⟨x, List.mem_cons_of_mem _ hx, h⟩
    · rintro (h | ⟨x, hx, h⟩)
      · exact Or.inl (lt_max_iff.mpr (Or.inl h))
      · rcases List.mem_cons.mp hx with rfl | hx
        · exact Or.inl (lt_max_iff.mpr (Or.inr h))
        · exact Or.inr ⟨x, hx, h⟩

theorem ite_singleton_eq_nil {α : Type} {c : Prop} [Decidable c] {a : α} :
    ((if c then [a] else []) = []) ↔ ¬c := by
  by_cases h : c <;> simp [h]

theorem ite_some_eq_none {α : Type} {c : Prop} [Decidable c] {a : α} :
    ((if c then some a else none) = none) ↔ ¬c := by
  by_cases h : c <;> simp [h]

/-- Characterization of an empty `validate_instance` error list in terms of
the six checks of the code. -/
theorem validate_errors_eq_nil_iff (inst : MPVRPCCInstance) :
    (validate_instance inst).2 = [] ↔
      (inst.garages ≠ [] ∧ inst.depots ≠ [] ∧ inst.stations ≠ [] ∧
        inst.trucks ≠ [] ∧
        (∀ p ∈ demandProducts inst, totalDemand inst p ≤ totalStock inst p) ∧
        maxDemandValue inst ≤ totalCapacity inst) := by
  simp only [validate_instance, List.append_eq_nil, List.filterMap_eq_nil_iff,
    ite_singleton_eq_nil, ite_some_eq_none, not_lt, ne_eq]
  tauto

/-- The capacity check fires iff some demand-product's total demand exceeds
total capacity. -/
theorem capacity_check_iff {inst : MPVRPCCInstance}
    (hcap0 : 0 ≤ totalCapacity inst) :
    totalCapacity inst < maxDemandValue inst ↔
      ∃ p ∈ demandProducts inst, totalCapacity inst < totalDemand inst p := by
  unfold maxDemandValue
  cases hd : (demandProducts inst).map (totalDemand inst) with
  | nil =>
    rw [List.map_eq_nil_iff] at hd
    simp only [hd, List.not_mem_nil, false_and, exists_false, exists_prop,
      iff_false]
    exact not_lt.mpr hcap0
  | cons v vs =>
    rw [lt_foldl_max]
    constructor
    · intro h
      have hx : ∃ x ∈ (demandProducts inst).map (totalDemand inst),
          totalCapacity inst < x := by
        rw [hd]
        rcases h with h | ⟨x, hx, h⟩
        · exact ⟨v, List.mem_cons_self _ _, h⟩
        · exact ⟨x, List.mem_cons_of_mem _ hx, h⟩
      obtain ⟨x, hmem, hlt⟩ := hx
      obtain ⟨p, hp, rfl⟩ := List.mem_map.mp hmem
      exact ⟨p, hp, hlt⟩
    · rintro ⟨p, hp, hlt⟩
      have hmem : totalDemand inst p ∈ v :: vs := by
        rw [← hd]
        exact List.mem_map_of_mem _ hp
      rcases List.mem_cons.mp hmem with heq | hmem'
      · exact Or.inl (heq ▸ hlt)
      · exact Or.inr ⟨_, hmem', hlt⟩

/-- Error-list non-emptiness in terms of the code's own six conditions. -/
theorem validate_errors_ne_nil_iff (inst : MPVRPCCInstance) :
    (validate_instance inst).2 ≠ [] ↔
      inst.garages = [] ∨ inst.depots = [] ∨ inst.stations = [] ∨
        inst.trucks = [] ∨
        (∃ p ∈ demandProducts inst, totalStock inst p < totalDemand inst p) ∨
        totalCapacity inst < maxDemandValue inst := by
  rw [ne_eq, validate_errors_eq_nil_iff]
  constructor
  · intro h
    by_contra hc
    push_neg at hc
    exact h ⟨hc.1, hc.2.1, hc.2.2.1, hc.2.2.2.1, hc.2.2.2.2.1, hc.2.2.2.2.2⟩
  · rintro (h | h | h | h | ⟨p, hp, hlt⟩ | h) hconj
    · exact hconj.1 h
    · exact hconj.2.1 h
    · exact hconj.2.2.1 h
    · exact hconj.2.2.2.1 h
    · exact absurd (hconj.2.2.2.2.1 p hp) (not_le.mpr hlt)
    · exact absurd hconj.2.2.2.2.2 (not_le.mpr h)

theorem stock_error_iff {inst : MPVRPCCInstance}
    (hstock : ∀ d ∈ inst.depots, ∀ kv ∈ d.stock, 0 ≤ kv.2) :
    (∃ p ∈ productsOf inst, totalStock inst p < totalDemand inst p) ↔
      ∃ p ∈ demandProducts inst, totalStock inst p < totalDemand inst p := by
  constructor
  · rintro ⟨p, hp, hlt⟩
    by_cases hdp : p ∈ demandProducts inst
    · exact ⟨p, hdp, hlt⟩
    · rw [totalDemand_eq_zero_of_not_demandProduct hdp] at hlt
      exact absurd hlt (not_lt.mpr (totalStock_nonneg hstock p))
  · rintro ⟨p, hp, hlt⟩
    exact ⟨p, demandProducts_subset_productsOf hp, hlt⟩

theorem spec_capacity_iff {inst : MPVRPCCInstance}
    (hcap0 : 0 ≤ totalCapacity inst) :
    totalCapacity inst <
        ((productsOf inst).map (totalDemand inst)).foldl max 0 ↔
      totalCapacity inst < maxDemandValue inst := by
  rw [capacity_check_iff hcap0, lt_foldl_max]
  constructor
  · rintro (h | ⟨x, hx, h⟩)
    · exact absurd h (not_lt.mpr hcap0)
    · obtain ⟨p, hp, rfl⟩ := List.mem_map.mp hx
      by_cases hdp : p ∈ demandProducts inst
      · exact ⟨p, hdp, h⟩
      · rw [totalDemand_eq_zero_of_not_demandProduct hdp] at h
        exact absurd h (not_lt.mpr hcap0)
  · rintro ⟨p, hp, hlt⟩
    exact Or.inr ⟨_,
      List.mem_map_of_mem _ (demandProducts_subset_productsOf hp), hlt⟩

/-- **C4** (Instance validation).  `validate_instance` returns a non-empty
error list iff at least one of the spec's six conditions holds (no garages,
no depots, no stations, no trucks, some product with total stock < total
demand, or total capacity < largest per-product total demand), and the
boolean it returns is exactly the emptiness of the error list; the embedding
is a total function (the code path contains no raising operation).
Hypotheses: stocks and capacities are non-negative, as the data model
requires. -/
theorem C4_validate_instance (inst : MPVRPCCInstance)
    (hstock : ∀ d ∈ inst.depots, ∀ kv ∈ d.stock, 0 ≤ kv.2)
    (hcap : ∀ t ∈ inst.trucks, 0 ≤ t.capacity) :
    ((validate_instance inst).2 ≠ [] ↔ instanceInvalidSpec inst)
      ∧ (validate_instance inst).1 = (validate_instance inst).2.isEmpty := by
  have hcap0 := totalCapacity_nonneg hcap
  refine ⟨?_, rfl⟩
  rw [validate_errors_ne_nil_iff]
  unfold instanceInvalidSpec
  exact or_congr Iff.rfl (or_congr Iff.rfl (or_congr Iff.rfl (or_congr Iff.rfl
    (or_congr (stock_error_iff hstock).symm (spec_capacity_iff hcap0).symm))))

/-- Witness for C4: a concrete instance with no garages (and one of
everything else) is reported invalid with a non-empty error list. -/
theorem C4_validate_instance_witness :
    let inst : MPVRPCCInstance :=
      { garages := []
        depots := [{ id := 1, location := { id := 1, x := 0, y := 0 },
                     stock := [(0, 50)] }]
        stations := [{ id := 1, location := { id := 1, x := 1, y := 1 },
                       demand := [(0, 10)] }]
        trucks := [{ id := 1, capacity := 30, garage_id := 1 }]
        changeover_costs := [] }
    (validate_instance inst).2 ≠ [] ∧
      (validate_instance inst).1 = (validate_instance inst).2.isEmpty := by
  intro inst
  have h := C4_validate_instance inst (by decide) (by decide)
  refine ⟨h.1.mpr ?_, h.2⟩
  exact Or.inl rfl

/-! ## C5 / C6: distance lookup failure, symmetry and caching -/

theorem cacheLookup_pair_head {k k' : DistKey} {d : ℝ}
    {c : List (DistKey × ℝ)} :
    cacheLookup ((k', d) :: (k, d) :: c) k = some d := by
  unfold cacheLookup
  by_cases h : k' = k
  · simp [h]
  · simp [List.find?_cons, h]

/-- Both orderings of a fresh pair are stored with the same value, so a
lookup of either ordering hits. -/
theorem cacheLookup_pair_head' {k k' : DistKey} {d : ℝ}
    {c : List (DistKey × ℝ)} :
    cacheLookup ((k', d) :: (k, d) :: c) k' = some d := by
  unfold cacheLookup
  simp [List.find?_cons]

/-- **C5 (amended)** (Lookup failure).  `distance(a, b)` never fails when
both ids exist in their categories (for any cache state), and — whenever the
queried key is not already cached — it fails with a `StopIteration`
(raised by `next` on the exhausted location generator, *not* a
`LookupError`) whenever either id does not exist in its category; when both
ids are missing the error is the one raised while resolving the first. -/
theorem C5_distance_lookup (inst : MPVRPCCInstance)
    (cache : List (DistKey × ℝ)) (t1 : LocationType) (i1 : ℕ)
    (t2 : LocationType) (i2 : ℕ) :
    (((∃ l1, _get_location inst t1 i1 = .ok l1) ∧
        (∃ l2, _get_location inst t2 i2 = .ok l2)) →
      ∃ d c', distance inst cache t1 i1 t2 i2 = .ok (d, c'))
    ∧ (((∃ e, _get_location inst t1 i1 = .error e) ∨
          (∃ e, _get_location inst t2 i2 = .error e)) →
        cacheLookup cache (t1, i1, t2, i2) = none →
        distance inst cache t1 i1 t2 i2 = .error PyError.stopIteration) := by
  constructor
  · rintro ⟨⟨l1, h1⟩, ⟨l2, h2⟩⟩
    unfold distance
    cases hc : cacheLookup cache (t1, i1, t2, i2) with
    | some d => exact ⟨d, cache, rfl⟩
    | none =>
      rw [h1, h2]
      exact ⟨_, _, rfl⟩
  · intro herr hc
    have hstop : ∀ t i e, _get_location inst t i = Except.error e →
        e = PyError.stopIteration := by
      intro t i e h
      cases t <;> unfold _get_location at h
      · cases hf : inst.garages.find? (fun g => g.id == i) with
        | none =>
          rw [hf] at h
          exact (Except.error.inj h).symm
        | some g =>
          rw [hf] at h
          exact Except.noConfusion h
      · cases hf : inst.depots.find? (fun d => d.id == i) with
        | none =>
          rw [hf] at h
          exact (Except.error.inj h).symm
        | some d =>
          rw [hf] at h
          exact Except.noConfusion h
      · cases hf : inst.stations.find? (fun s => s.id == i) with
        | none =>
          rw [hf] at h
          exact (Except.error.inj h).symm
        | some s =>
          rw [hf] at h
          exact Except.noConfusion h
    unfold distance
    rw [hc]
    cases hg1 : _get_location inst t1 i1 with
    | error e =>
      rw [hstop t1 i1 e hg1]
    | ok l1 =>
      cases hg2 : _get_location inst t2 i2 with
      | error e =>
        rw [hstop t2 i2 e hg2]
      | ok l2 =>
        exfalso
        rcases herr with ⟨e, he⟩ | ⟨e, he⟩
        · rw [hg1] at he
          exact Except.noConfusion he
        · rw [hg2] at he
          exact Except.noConfusion he

/-- A shared concrete instance for witnesses: one garage, one depot, one
station, one truck. -/
def sampleInstance : MPVRPCCInstance :=
  { garages := [{ id := 1, x := 0, y := 0 }]
    depots := [{ id := 1, location := { id := 1, x := 3, y := 4 },
                 stock := [(0, 100)] }]
    stations := [{ id := 1, location := { id := 1, x := 3, y := 0 },
                   demand := [(0, 40)] }]
    trucks := [{ id := 1, capacity := 50, garage_id := 1 }]
    changeover_costs := [] }

/-- Witness for C5 (amended): on the sample instance, distance between the
garage and the station succeeds, and distance to the non-existent station
99 fails with `StopIteration`. -/
theorem C5_distance_lookup_witness :
    (∃ d c', distance sampleInstance [] .garage 1 .station 1 = .ok (d, c'))
      ∧ distance sampleInstance [] .garage 1 .station 99 =
          .error PyError.stopIteration := by
  constructor
  · exact (C5_distance_lookup sampleInstance [] .garage 1 .station 1).1
      ⟨⟨_, rfl⟩, ⟨_, rfl⟩⟩
  · exact (C5_distance_lookup sampleInstance [] .garage 1 .station 99).2
      (Or.inr ⟨PyError.stopIteration, rfl⟩) rfl

/-- Counterexample to C5 as stated: requesting the distance to a station id
that does not exist fails with `StopIteration`, not with a `LookupError` —
the raised exception class is not in the `LookupError` hierarchy. -/
theorem C5_distance_lookup_counterexample :
    distance sampleInstance [] .garage 1 .station 99 =
        .error PyError.stopIteration
      ∧ distance sampleInstance [] .garage 1 .station 99 ≠
          .error PyError.lookupError := by
  constructor
  · rfl
  · intro h
    rw [show distance sampleInstance [] .garage 1 .station 99 =
        .error PyError.stopIteration from rfl] at h
    exact PyError.noConfusion (Except.error.inj h)

/-- **C6** (Distance symmetry and caching).  For existing locations, the
first computation (empty cache) returns the Euclidean distance of their
coordinates and stores it under both orderings of the key; every repeated
call, in either ordering, returns the identical cached value and leaves the
cache unchanged; and the distance is symmetric. -/
theorem C6_distance_symm_cache (inst : MPVRPCCInstance)
    (t1 : LocationType) (i1 : ℕ) (t2 : LocationType) (i2 : ℕ)
    (l1 l2 : Location)
    (h1 : _get_location inst t1 i1 = .ok l1)
    (h2 : _get_location inst t2 i2 = .ok l2) :
    ∃ c1, distance inst [] t1 i1 t2 i2 = .ok (euclid l1 l2, c1)
      ∧ distance inst c1 t2 i2 t1 i1 = .ok (euclid l1 l2, c1)
      ∧ distance inst c1 t1 i1 t2 i2 = .ok (euclid l1 l2, c1)
      ∧ euclid l1 l2 = euclid l2 l1 := by
  refine ⟨((t2, i2, t1, i1), euclid l1 l2) ::
    ((t1, i1, t2, i2), euclid l1 l2) :: [], ?_, ?_, ?_, ?_⟩
  · unfold distance
    rw [show cacheLookup [] (t1, i1, t2, i2) = none from rfl, h1, h2]
  · unfold distance
    rw [cacheLookup_pair_head']
  · unfold distance
    rw [cacheLookup_pair_head]
  · unfold euclid
    congr 1
    push_cast
    ring

/-! ## The solver

The solver consumes `instance.distance` only through comparisons and sums of
its values, so it is parameterized by a distance function
`dist : LocationType → ℕ → LocationType → ℕ → ℚ` (every float the Python
code compares is a rational value).  The external OR-Tools search
(`routing.SolveWithParameters` plus the index manager) is abstracted as an
`Oracle` returning, per available vehicle, the list of stations visited —
exactly what the extraction loop reads back — or `none` on failure. -/

/-- The distance function consumed by the solver. -/
abbrev DistFn := LocationType → ℕ → LocationType → ℕ → ℚ

/-- The abstract VRP oracle: product, stations, depot, available trucks,
remaining demand ↦ per-vehicle visited-station lists, or failure. -/
abbrev Oracle :=
  ℕ → List Station → Depot → List Truck → (ℕ × ℕ → ℚ) →
    Option (List (List Station))

/-- Python `min(iterable, key=f)` over `s :: rest`: the first element
attaining the minimal key (a later element replaces the current best only
on a strictly smaller key). -/
def pyMin (f : Station → ℚ) (s : Station) (rest : List Station) : Station :=
  rest.foldl (fun b s2 => if f s2 < f b then s2 else b) s

theorem foldl_pyMin_mem (f : Station → ℚ) :
    ∀ (l : List Station) (b : Station),
      l.foldl (fun b s2 => if f s2 < f b then s2 else b) b = b ∨
        l.foldl (fun b s2 => if f s2 < f b then s2 else b) b ∈ l := by
  intro l
  induction l with
  | nil => intro b; exact Or.inl rfl
  | cons y ys ih =>
    intro b
    rw [List.foldl_cons]
    rcases ih (if f y < f b then y else b) with h | h
    · rw [h]
      by_cases hy : f y < f b
      · rw [if_pos hy]
        exact Or.inr (List.mem_cons_self _ _)
      · rw [if_neg hy]
        exact Or.inl rfl
    · exact Or.inr (List.mem_cons_of_mem _ h)

theorem pyMin_mem (f : Station → ℚ) (s : Station) (rest : List Station) :
    pyMin f s rest ∈ s :: rest := by
  rcases foldl_pyMin_mem f rest s with h | h
  · rw [pyMin, h]
    exact List.mem_cons_self _ _
  · exact List.mem_cons_of_mem _ h

/-- The delivery loop of `_build_mini_route`: while stations remain and
capacity is positive, pick the unvisited station nearest to the depot
(Python `min`, first minimal wins), deliver `min(remaining capacity,
remaining demand)`, record it only if positive, decrement capacity only if
positive, and remove the chosen station. -/
def serveLoop (dist : Station → ℚ) (dem : ℕ → ℚ) (rc : ℚ)
    (unvisited : List Station) : List (ℕ × ℚ) :=
  match unvisited with
  | [] => []
  | s :: rest =>
    if 0 < rc then
      if 0 < min rc (dem (pyMin dist s rest).id) then
        ((pyMin dist s rest).id, min rc (dem (pyMin dist s rest).id)) ::
          serveLoop dist dem (rc - min rc (dem (pyMin dist s rest).id))
            ((s :: rest).erase (pyMin dist s rest))
      else serveLoop dist dem rc ((s :: rest).erase (pyMin dist s rest))
    else []
termination_by unvisited.length
decreasing_by
  all_goals
    have hm : pyMin dist s rest ∈ s :: rest := pyMin_mem dist s rest
    have hl := List.length_erase_of_mem hm
    simp only [hl, List.length_cons]
    omega

/-- `_build_mini_route`: load = min(capacity, total remaining demand of the
given stations, depot stock); `None` when load ≤ 0 or when no station
received a positive delivery. -/
def _build_mini_route (dist : DistFn) (truck : Truck) (depot : Depot)
    (product : ℕ) (stations : List Station) (remaining : ℕ × ℕ → ℚ) :
    Option MiniRoute :=
  let total_demand := (stations.map (fun s => remaining (s.id, product))).sum
  let load_quantity :=
    min truck.capacity (min total_demand (dget depot.stock product))
  if 0 < load_quantity then
    let stations_to_serve :=
      serveLoop (fun s => dist .depot depot.id .station s.id)
        (fun sid => remaining (sid, product)) load_quantity stations
    if stations_to_serve = [] then none
    else some { depot_id := depot.id, product_id := product,
                load_quantity := load_quantity,
                stations := stations_to_serve }
  else none

/-- `_calculate_changeover_cost`: walk the mini-routes carrying the current
product, starting from the truck's initial product. -/
def _calculate_changeover_cost (inst : MPVRPCCInstance)
    (route : CompleteRoute) (truck : Truck) : ℚ :=
  (route.mini_routes.foldl (fun (acc : ℚ × ℕ) mr =>
    if acc.2 ≠ mr.product_id
    then (acc.1 + get_changeover_cost inst acc.2 mr.product_id, mr.product_id)
    else acc) (0, truck.initial_product)).1

/-- `_calculate_route_distance`: garage → first depot → (per mini-route:
depot if changed, then its stations) → garage.  (The source resolves the
garage object first — raising `StopIteration` on a dangling garage id — but
only to read back its id; no verified claim inspects this value.) -/
def _calculate_route_distance (dist : DistFn) (route : CompleteRoute) : ℚ :=
  match route.mini_routes with
  | [] => 0
  | first :: _ =>
    let start := dist .garage route.garage_id .depot first.depot_id
    let step := route.mini_routes.foldl
      (fun (acc : ℚ × LocationType × ℕ) mr =>
        let acc1 :=
          if acc.2.1 ≠ LocationType.depot ∨ acc.2.2 ≠ mr.depot_id
          then (acc.1 + dist acc.2.1 acc.2.2 .depot mr.depot_id,
                LocationType.depot, mr.depot_id)
          else (acc.1, LocationType.depot, mr.depot_id)
        mr.stations.foldl (fun acc2 sq =>
          (acc2.1 + dist acc2.2.1 acc2.2.2 .station sq.1,
           LocationType.station, sq.1)) acc1)
      (start, LocationType.depot, first.depot_id)
    step.1 + dist step.2.1 step.2.2 .garage route.garage_id

/-- `_build_complete_route`: wrap the (at most one) mini-route and fill the
three cached cost fields. -/
def _build_complete_route (inst : MPVRPCCInstance) (dist : DistFn)
    (truck : Truck) (depot : Depot) (product : ℕ)
    (stations : List Station) (remaining : ℕ × ℕ → ℚ) : CompleteRoute :=
  match _build_mini_route dist truck depot product stations remaining with
  | none =>
    { truck_id := truck.id, garage_id := truck.garage_id, mini_routes := [] }
  | some mini =>
    let base : CompleteRoute :=
      { truck_id := truck.id, garage_id := truck.garage_id,
        mini_routes := [mini] }
    let d := _calculate_route_distance dist base
    let c := _calculate_changeover_cost inst base truck
    { base with total_distance := d, total_changeover_cost := c,
                total_cost := d + c }

/-- The shared post-processing of both the oracle-extraction loop and the
greedy fallback: per (truck, visited stations), skip empty visit lists,
build the complete route, and keep it only if it has a mini-route. -/
def buildRoutes (inst : MPVRPCCInstance) (dist : DistFn) (depot : Depot)
    (product : ℕ) (remaining : ℕ × ℕ → ℚ)
    (pairs : List (Truck × List Station)) : List CompleteRoute :=
  pairs.filterMap (fun ts =>
    if ts.2 = [] then none
    else
      let route :=
        _build_complete_route inst dist ts.1 depot product ts.2 remaining
      if route.mini_routes = [] then none else some route)

/-! ### Greedy fallback (`_assign_stations_greedy`)

The code iterates `for station_id in list(unvisited)` over a snapshot of
the `unvisited` set while removing exhausted ids from the set, tracking
`best_cost` (initially `float('inf')`, modelled as `⊤ : WithTop ℚ`) and
`best_assignment`.  The set `unvisited = set(s.id for s in stations)` is
modelled as the id list in station-list order with duplicates removed:
station ids are assigned contiguously from 1 by `add_station`, for which
CPython's set of small ints iterates in ascending id order — the station
list order. -/

/-- The scan state: the mutable `unvisited` set, `best_cost`, and
`best_assignment` (truck id, station object). -/
structure ScanState where
  unvisited : List ℕ
  best_cost : WithTop ℚ
  best : Option (ℕ × Station)

/-- One iteration of the outer `for station_id in list(unvisited)` loop:
resolve the station (the `next(...)` lookup — `none` is unreachable at call
sites, where every unvisited id comes from `stations`), drop it from the
set if its remaining demand is ≤ 0, and otherwise scan the trucks, taking
the first feasible truck at a strictly smaller distance than the current
best. -/
def scanStation (dist : DistFn) (product : ℕ) (stations : List Station)
    (trucks : List Truck) (depot : Depot) (rem : ℕ × ℕ → ℚ) (load : ℕ → ℚ)
    (st : ScanState) (station_id : ℕ) : ScanState :=
  match stations.find? (fun s => s.id == station_id) with
  | none => st
  | some station =>
    if rem (station.id, product) ≤ 0 then
      { st with unvisited := st.unvisited.erase station_id }
    else
      trucks.foldl (fun st2 t =>
        if load t.id + rem (station.id, product) ≤ t.capacity then
          if ((dist .depot depot.id .station station.id : ℚ) : WithTop ℚ) <
              st2.best_cost then
            { st2 with
                best_cost :=
                  ((dist .depot depot.id .station station.id : ℚ) : WithTop ℚ),
                best := some (t.id, station) }
          else st2
        else st2) st

/-- One full pass of the `while unvisited:` body up to the assignment
decision: fold the snapshot through `scanStation`. -/
def greedyScan (dist : DistFn) (product : ℕ) (stations : List Station)
    (trucks : List Truck) (depot : Depot) (rem : ℕ × ℕ → ℚ) (load : ℕ → ℚ)
    (unvisited : List ℕ) : ScanState :=
  unvisited.foldl (scanStation dist product stations trucks depot rem load)
    { unvisited := unvisited, best_cost := ⊤, best := none }

theorem truckFold_unvisited (dist : DistFn) (product : ℕ) (depot : Depot)
    (rem : ℕ × ℕ → ℚ) (load : ℕ → ℚ) (station : Station) :
    ∀ (trucks : List Truck) (st : ScanState),
      (trucks.foldl (fun st2 t =>
        if load t.id + rem (station.id, product) ≤ t.capacity then
          if ((dist .depot depot.id .station station.id : ℚ) : WithTop ℚ) <
              st2.best_cost then
            { st2 with
                best_cost :=
                  ((dist .depot depot.id .station station.id : ℚ) : WithTop ℚ),
                best := some (t.id, station) }
          else st2
        else st2) st).unvisited = st.unvisited := by
  intro trucks
  induction trucks with
  | nil => intro st; rfl
  | cons t ts ih =>
    intro st
    rw [List.foldl_cons]
    rw [ih]
    by_cases h1 : load t.id + rem (station.id, product) ≤ t.capacity
    · rw [if_pos h1]
      by_cases h2 : ((dist .depot depot.id .station station.id : ℚ) :
          WithTop ℚ) < st.best_cost
      · rw [if_pos h2]
      · rw [if_neg h2]
    · rw [if_neg h1]

theorem scanStation_unvisited_sublist (dist : DistFn) (product : ℕ)
    (stations : List Station) (trucks : List Truck) (depot : Depot)
    (rem : ℕ × ℕ → ℚ) (load : ℕ → ℚ) (st : ScanState) (sid : ℕ) :
    (scanStation dist product stations trucks depot rem load st
      sid).unvisited.Sublist st.unvisited := by
  unfold scanStation
  split
  · exact List.Sublist.refl _
  · split
    · exact List.erase_sublist _ _
    · rw [truckFold_unvisited]

theorem foldl_scan_unvisited_sublist (dist : DistFn) (product : ℕ)
    (stations : List Station) (trucks : List Truck) (depot : Depot)
    (rem : ℕ × ℕ → ℚ) (load : ℕ → ℚ) :
    ∀ (l : List ℕ) (st : ScanState),
      (l.foldl (scanStation dist product stations trucks depot rem load)
        st).unvisited.Sublist st.unvisited := by
  intro l
  induction l with
  | nil => intro st; exact List.Sublist.refl _
  | cons x xs ih =>
    intro st
    rw [List.foldl_cons]
    exact (ih _).trans
      (scanStation_unvisited_sublist dist product stations trucks depot rem
        load st x)

/-- Ids whose remaining demand is positive are never erased by the scan. -/
theorem foldl_scan_keeps_positive (dist : DistFn) (product : ℕ)
    (stations : List Station) (trucks : List Truck) (depot : Depot)
    (rem : ℕ × ℕ → ℚ) (load : ℕ → ℚ) :
    ∀ (l : List ℕ) (st : ScanState) (x : ℕ),
      x ∈ st.unvisited → 0 < rem (x, product) →
      x ∈ (l.foldl (scanStation dist product stations trucks depot rem load)
        st).unvisited := by
  intro l
  induction l with
  | nil => intro st x hx _; exact hx
  | cons sid xs ih =>
    intro st x hx hpos
    rw [List.foldl_cons]
    refine ih _ x ?_ hpos
    unfold scanStation
    split
    · exact hx
    next station hf =>
      split
      next hd =>
        have hne : x ≠ sid := by
          intro heq
          have hid : station.id = sid := by
            have := List.find?_some hf
            simpa using this
          rw [heq, ← hid] at hpos
          exact absurd hpos (not_lt.mpr hd)
        exact List.mem_erase_of_ne hne |>.mpr hx
      next hd =>
        rw [truckFold_unvisited]
        exact hx

/-- If the truck fold produced a best assignment it either kept the incoming
one or assigned the scanned station. -/
theorem truckFold_best (dist : DistFn) (product : ℕ) (depot : Depot)
    (rem : ℕ × ℕ → ℚ) (load : ℕ → ℚ) (station : Station) :
    ∀ (trucks : List Truck) (st : ScanState) (tid : ℕ) (stn : Station),
      (trucks.foldl (fun st2 t =>
        if load t.id + rem (station.id, product) ≤ t.capacity then
          if ((dist .depot depot.id .station station.id : ℚ) : WithTop ℚ) <
              st2.best_cost then
            { st2 with
                best_cost :=
                  ((dist .depot depot.id .station station.id : ℚ) : WithTop ℚ),
                best := some (t.id, station) }
          else st2
        else st2) st).best = some (tid, stn) →
      st.best = some (tid, stn) ∨ stn = station := by
  intro trucks
  induction trucks with
  | nil => intro st tid stn h; exact Or.inl h
  | cons t ts ih =>
    intro st tid stn h
    rw [List.foldl_cons] at h
    by_cases h1 : load t.id + rem (station.id, product) ≤ t.capacity
    · rw [if_pos h1] at h
      by_cases h2 : ((dist .depot depot.id .station station.id : ℚ) :
          WithTop ℚ) < st.best_cost
      · rw [if_pos h2] at h
        rcases ih _ tid stn h with h3 | h3
        · simp only [Option.some.injEq, Prod.mk.injEq] at h3
          exact Or.inr h3.2.symm
        · exact Or.inr h3
      · rw [if_neg h2] at h
        exact ih _ tid stn h
    · rw [if_neg h1] at h
      exact ih _ tid stn h

theorem scanStation_best (dist : DistFn) (product : ℕ)
    (stations : List Station) (trucks : List Truck) (depot : Depot)
    (rem : ℕ × ℕ → ℚ) (load : ℕ → ℚ) (st : ScanState) (sid : ℕ)
    (tid : ℕ) (stn : Station)
    (h : (scanStation dist product stations trucks depot rem load st
      sid).best = some (tid, stn)) :
    st.best = some (tid, stn) ∨ 0 < rem (stn.id, product) := by
  unfold scanStation at h
  revert h
  split
  · intro h
    exact Or.inl h
  next station hf =>
    split
    next hd =>
      intro h
      exact Or.inl h
    next hd =>
      intro h
      rcases truckFold_best dist product depot rem load station trucks st
          tid stn h with h2 | h2
      · exact Or.inl h2
      · rw [h2]
        exact Or.inr (not_le.mp hd)

/-- A best assignment produced by a scan points at a station with positive
remaining demand. -/
theorem greedyScan_best_positive (dist : DistFn) (product : ℕ)
    (stations : List Station) (trucks : List Truck) (depot : Depot)
    (rem : ℕ × ℕ → ℚ) (load : ℕ → ℚ) :
    ∀ (l : List ℕ) (st : ScanState) (tid : ℕ) (stn : Station),
      (l.foldl (scanStation dist product stations trucks depot rem load)
        st).best = some (tid, stn) →
      st.best = some (tid, stn) ∨ 0 < rem (stn.id, product) := by
  intro l
  induction l with
  | nil => intro st tid stn h; exact Or.inl h
  | cons sid xs ih =>
    intro st tid stn h
    rw [List.foldl_cons] at h
    rcases ih _ tid stn h with h2 | h2
    · exact scanStation_best dist product stations trucks depot rem load st
        sid tid stn h2
    · exact Or.inr h2

/-- A best assignment produced by the truck fold whose station has positive
demand lies in a state whose unvisited set still holds that id. -/
theorem truckFold_best_mem (dist : DistFn) (product : ℕ) (depot : Depot)
    (rem : ℕ × ℕ → ℚ) (load : ℕ → ℚ) (station : Station) :
    ∀ (trucks : List Truck) (st : ScanState) (tid : ℕ) (stn : Station),
      (trucks.foldl (fun st2 t =>
        if load t.id + rem (station.id, product) ≤ t.capacity then
          if ((dist .depot depot.id .station station.id : ℚ) : WithTop ℚ) <
              st2.best_cost then
            { st2 with
                best_cost :=
                  ((dist .depot depot.id .station station.id : ℚ) : WithTop ℚ),
                best := some (t.id, station) }
          else st2
        else st2) st).best = some (tid, stn) →
      st.best = some (tid, stn) ∨ stn.id = station.id := by
  intro trucks st tid stn h
  rcases truckFold_best dist product depot rem load station trucks st tid stn
      h with h2 | h2
  · exact Or.inl h2
  · rw [h2]
    exact Or.inr rfl

theorem scanStation_best_id (dist : DistFn) (product : ℕ)
    (stations : List Station) (trucks : List Truck) (depot : Depot)
    (rem : ℕ × ℕ → ℚ) (load : ℕ → ℚ) (st : ScanState) (sid : ℕ)
    (tid : ℕ) (stn : Station)
    (h : (scanStation dist product stations trucks depot rem load st
      sid).best = some (tid, stn)) :
    st.best = some (tid, stn) ∨ stn.id = sid := by
  unfold scanStation at h
  revert h
  split
  · intro h
    exact Or.inl h
  next station hf =>
    have hid : station.id = sid := by
      have := List.find?_some hf
      simpa using this
    split
    next hd =>
      intro h
      exact Or.inl h
    next hd =>
      intro h
      rcases truckFold_best_mem dist product depot rem load station trucks st
          tid stn h with h2 | h2
      · exact Or.inl h2
      · exact Or.inr (h2.trans hid)

theorem greedyScan_best_id_mem (dist : DistFn) (product : ℕ)
    (stations : List Station) (trucks : List Truck) (depot : Depot)
    (rem : ℕ × ℕ → ℚ) (load : ℕ → ℚ) :
    ∀ (l : List ℕ) (st : ScanState) (tid : ℕ) (stn : Station),
      (l.foldl (scanStation dist product stations trucks depot rem load)
        st).best = some (tid, stn) →
      st.best = some (tid, stn) ∨ stn.id ∈ l := by
  intro l
  induction l with
  | nil => intro st tid stn h; exact Or.inl h
  | cons sid xs ih =>
    intro st tid stn h
    rw [List.foldl_cons] at h
    rcases ih _ tid stn h with h2 | h2
    · rcases scanStation_best_id dist product stations trucks depot rem load
          st sid tid stn h2 with h3 | h3
      · exact Or.inl h3
      · exact Or.inr (h3 ▸ List.mem_cons_self _ _)
    · exact Or.inr (List.mem_cons_of_mem _ h2)

theorem greedyScan_unvisited_sublist (dist : DistFn) (product : ℕ)
    (stations : List Station) (trucks : List Truck) (depot : Depot)
    (rem : ℕ × ℕ → ℚ) (load : ℕ → ℚ) (unvisited : List ℕ) :
    (greedyScan dist product stations trucks depot rem load
      unvisited).unvisited.Sublist unvisited :=
  foldl_scan_unvisited_sublist dist product stations trucks depot rem load
    unvisited { unvisited := unvisited, best_cost := ⊤, best := none }

/-- The station chosen by a full scan has positive remaining demand and its
id is still in the scan's final unvisited set. -/
theorem greedyScan_best_facts (dist : DistFn) (product : ℕ)
    (stations : List Station) (trucks : List Truck) (depot : Depot)
    (rem : ℕ × ℕ → ℚ) (load : ℕ → ℚ) (unvisited : List ℕ)
    (tid : ℕ) (stn : Station)
    (h : (greedyScan dist product stations trucks depot rem load
      unvisited).best = some (tid, stn)) :
    0 < rem (stn.id, product) ∧
      stn.id ∈ (greedyScan dist product stations trucks depot rem load
        unvisited).unvisited := by
  have hpos : 0 < rem (stn.id, product) := by
    rcases greedyScan_best_positive dist product stations trucks depot rem
        load unvisited _ tid stn h with h2 | h2
    · exact absurd h2 (by simp)
    · exact h2
  have hidmem : stn.id ∈ unvisited := by
    rcases greedyScan_best_id_mem dist product stations trucks depot rem
        load unvisited _ tid stn h with h2 | h2
    · exact absurd h2 (by simp)
    · exact h2
  exact ⟨hpos,
    foldl_scan_keeps_positive dist product stations trucks depot rem load
      unvisited _ stn.id hidmem hpos⟩

/-- The `while unvisited:` loop of `_assign_stations_greedy`: scan, then
either assign the best (station appended to the truck's list, load
increased by the station's remaining demand, id removed from the set) and
continue, or break. -/
def greedyLoop (dist : DistFn) (product : ℕ) (stations : List Station)
    (trucks : List Truck) (depot : Depot) (rem : ℕ × ℕ → ℚ)
    (unvisited : List ℕ) (routes : ℕ → List Station) (load : ℕ → ℚ) :
    (ℕ → List Station) × (ℕ → ℚ) :=
  match unvisited with
  | [] => (routes, load)
  | u0 :: urest =>
    match hb : (greedyScan dist product stations trucks depot rem load
        (u0 :: urest)).best with
    | some ts =>
      greedyLoop dist product stations trucks depot rem
        (((greedyScan dist product stations trucks depot rem load
            (u0 :: urest)).unvisited).erase ts.2.id)
        (fun k => if k = ts.1 then routes ts.1 ++ [ts.2] else routes k)
        (fun k => if k = ts.1 then load ts.1 + rem (ts.2.id, product)
                  else load k)
    | none => (routes, load)
termination_by unvisited.length
decreasing_by
  have hfacts := greedyScan_best_facts dist product stations trucks depot
    rem load (u0 :: urest) ts.1 ts.2 (by rw [hb])
  have hsub := greedyScan_unvisited_sublist dist product stations trucks
    depot rem load (u0 :: urest)
  have hlen := List.length_erase_of_mem hfacts.2
  have hle := hsub.length_le
  simp only [hlen, List.length_cons]
  simp only [List.length_cons] at hle
  have hpos : 0 < (greedyScan dist product stations trucks depot rem load
      (u0 :: urest)).unvisited.length := List.length_pos_of_mem hfacts.2
  omega

/-- `_assign_stations_greedy`: run the greedy loop from empty per-truck
routes and zero loads over the set of station ids, then build one complete
route per truck with a non-empty visit list. -/
def _assign_stations_greedy (inst : MPVRPCCInstance) (dist : DistFn)
    (product : ℕ) (stations : List Station) (trucks : List Truck)
    (depot : Depot) (rem : ℕ × ℕ → ℚ) : List CompleteRoute :=
  let result := greedyLoop dist product stations trucks depot rem
    ((stations.map Station.id).dedup) (fun _ => []) (fun _ => 0)
  buildRoutes inst dist depot product rem
    (trucks.map (fun t => (t, result.1 t.id)))

/-- The trucks available to a round: those not in `used_trucks` (which the
code never adds to — see C9). -/
def availableTrucks (inst : MPVRPCCInstance) (used : List ℕ) : List Truck :=
  inst.trucks.filter (fun t => ¬ t.id ∈ used)

/-- `_solve_vrp_for_product_ortools`: select available trucks, take the
first supplying depot (`depots[0]`; the caller guarantees the list is
non-empty), consult the oracle, extract its per-vehicle visit lists — or
delegate the whole round to the greedy fallback. -/
def _solve_vrp_for_product (inst : MPVRPCCInstance) (dist : DistFn)
    (oracle : Oracle) (product : ℕ) (stations : List Station)
    (depots : List Depot) (rem : ℕ × ℕ → ℚ) (used : List ℕ) :
    List CompleteRoute :=
  let available := availableTrucks inst used
  if available = [] then []
  else
    match depots with
    | [] => []
    | depot :: _ =>
      match oracle product stations depot available rem with
      | none =>
        _assign_stations_greedy inst dist product stations available depot
          rem
      | some assign =>
        buildRoutes inst dist depot product rem (available.zip assign)

/-- Pointwise map update, modelling `d[k] = v`. -/
def updateFn (f : ℕ × ℕ → ℚ) (k : ℕ × ℕ) (v : ℚ) : ℕ × ℕ → ℚ :=
  fun k2 => if k2 = k then v else f k2

/-- `_initialize_remaining_demand`: the dict built from every station's
demand entries; reads of absent keys default to 0 as every read in the
code uses `.get(key, 0)`. -/
def _init_remaining_demand (inst : MPVRPCCInstance) : ℕ × ℕ → ℚ :=
  inst.stations.foldl (fun r s =>
    s.demand.foldl (fun r2 pq => updateFn r2 (s.id, pq.1) pq.2) r)
    (fun _ => 0)

/-- The demand update at the end of a round:
`remaining_demand[(station_id, product)] -= qty` for every delivery entry
of every mini-route of every returned route. -/
def decrementDemand (product : ℕ) (routes : List CompleteRoute)
    (rem : ℕ × ℕ → ℚ) : ℕ × ℕ → ℚ :=
  routes.foldl (fun r route =>
    route.mini_routes.foldl (fun r2 mr =>
      mr.stations.foldl (fun r3 sq =>
        updateFn r3 (sq.1, product) (r3 (sq.1, product) - sq.2)) r2) r) rem

/-- The stations still needing a product
(`remaining_demand.get((s.id, product), 0) > 0`). -/
def stations_needing (inst : MPVRPCCInstance) (product : ℕ)
    (rem : ℕ × ℕ → ℚ) : List Station :=
  inst.stations.filter (fun s => 0 < rem (s.id, product))

/-- The depots supplying a product (`d.stock.get(product, 0) > 0`). -/
def depots_supplying (inst : MPVRPCCInstance) (product : ℕ) : List Depot :=
  inst.depots.filter (fun d => 0 < dget d.stock product)

/-- One iteration of the product loop of `_solve_product_by_product`,
acting on the state (routes, used trucks, remaining demand). -/
def roundStep (inst : MPVRPCCInstance) (dist : DistFn) (oracle : Oracle)
    (acc : List CompleteRoute × List ℕ × (ℕ × ℕ → ℚ)) (product : ℕ) :
    List CompleteRoute × List ℕ × (ℕ × ℕ → ℚ) :=
  let needing := stations_needing inst product acc.2.2
  if needing = [] then acc
  else
    let supplying := depots_supplying inst product
    if supplying = [] then acc
    else
      let product_routes := _solve_vrp_for_product inst dist oracle product
        needing supplying acc.2.2 acc.2.1
      (acc.1 ++ product_routes, acc.2.1,
        decrementDemand product product_routes acc.2.2)

/-- The product loop run over an arbitrary product sequence. -/
def runRounds (inst : MPVRPCCInstance) (dist : DistFn) (oracle : Oracle)
    (products : List ℕ) :
    List CompleteRoute × List ℕ × (ℕ × ℕ → ℚ) :=
  products.foldl (roundStep inst dist oracle)
    ([], [], _init_remaining_demand inst)

/-- `_solve_product_by_product`: the loop over
`sorted(self.instance.products)`. -/
def _solve_product_by_product (inst : MPVRPCCInstance) (dist : DistFn)
    (oracle : Oracle) : List CompleteRoute :=
  (runRounds inst dist oracle
    ((productsOf inst).mergeSort (fun a b => a ≤ b))).1

/-- `MPVRPCCORToolsSolver.solve` (timing and logging stripped). -/
def solve (inst : MPVRPCCInstance) (dist : DistFn) (oracle : Oracle) :
    List CompleteRoute :=
  _solve_product_by_product inst dist oracle

/-! ## C2 / C8: the route assembler -/

theorem sum_map_erase (f : Station → ℚ) {l : List Station} {a : Station}
    (h : a ∈ l) : ((l.erase a).map f).sum = (l.map f).sum - f a := by
  have hp := List.perm_cons_erase h
  have hs := (hp.map f).sum_eq
  simp only [List.map_cons, List.sum_cons] at hs
  linarith

/-- Total delivered by the serve loop = min(initial capacity, total
remaining demand of the stations), for non-negative capacity and demands. -/
theorem serveLoop_sum (dist : Station → ℚ) (dem : ℕ → ℚ)
    (rc : ℚ) (unvisited : List Station) :
    0 ≤ rc → (∀ s ∈ unvisited, 0 ≤ dem s.id) →
    ((serveLoop dist dem rc unvisited).map Prod.snd).sum =
      min rc ((unvisited.map (fun s => dem s.id)).sum) := by
  induction rc, unvisited using serveLoop.induct dist dem with
  | case1 rc =>
    intro h0 _
    rw [serveLoop]
    simp [min_eq_right h0]
  | case2 rc s rest h1 h2 ih =>
    intro h0 hdem
    have hmem : pyMin dist s rest ∈ s :: rest := pyMin_mem dist s rest
    have hdn : 0 ≤ dem (pyMin dist s rest).id := hdem _ hmem
    rw [serveLoop, if_pos h1, if_pos h2]
    set n := pyMin dist s rest with hn
    set D := ((s :: rest).map (fun s2 => dem s2.id)).sum with hDdef
    have hD : dem n.id ≤ D := by
      rw [hDdef]
      refine List.single_le_sum ?_ _ (List.mem_map_of_mem _ hmem)
      intro x hx
      obtain ⟨s2, hs2, rfl⟩ := List.mem_map.mp hx
      exact hdem s2 hs2
    have herase : (((s :: rest).erase n).map (fun s2 => dem s2.id)).sum =
        D - dem n.id := by
      rw [hDdef]
      exact sum_map_erase _ hmem
    have hrec := ih (by
        have := min_le_left rc (dem n.id)
        linarith)
      (by
        intro s2 hs2
        exact hdem s2 ((List.erase_sublist _ _).mem hs2))
    rw [List.map_cons, List.sum_cons, hrec, herase]
    rcases le_total rc (dem n.id) with hc | hc
    · rw [min_eq_left hc, sub_self,
        min_eq_left (by linarith : (0:ℚ) ≤ D - dem n.id),
        min_eq_left (le_trans hc hD)]
      exact add_zero rc
    · rw [min_eq_right hc, min_sub_sub_right]
      show dem n.id + (min rc D - dem n.id) = min rc D
      ring
  | case3 rc s rest h1 h2 ih =>
    intro h0 hdem
    have hmem : pyMin dist s rest ∈ s :: rest := pyMin_mem dist s rest
    have hdn : 0 ≤ dem (pyMin dist s rest).id := hdem _ hmem
    rw [serveLoop, if_pos h1, if_neg h2]
    set n := pyMin dist s rest with hn
    set D := ((s :: rest).map (fun s2 => dem s2.id)).sum with hDdef
    have hd0 : dem n.id = 0 := by
      rcases le_total rc (dem n.id) with hc | hc
      · exact absurd (lt_min h1 (lt_of_lt_of_le h1 hc)) h2
      · rw [min_eq_right hc] at h2
        exact le_antisymm (not_lt.mp h2) hdn
    have herase : (((s :: rest).erase n).map (fun s2 => dem s2.id)).sum =
        D - dem n.id := by
      rw [hDdef]
      exact sum_map_erase _ hmem
    have hrec := ih h0 (by
      intro s2 hs2
      exact hdem s2 ((List.erase_sublist _ _).mem hs2))
    rw [hrec, herase, hd0, sub_zero]
  | case4 rc s rest h1 =>
    intro h0 hdem
    have hrc : rc = 0 := le_antisymm (not_lt.mp h1) h0
    rw [serveLoop, if_neg h1]
    set D := ((s :: rest).map (fun s2 => dem s2.id)).sum with hDdef
    have hD0 : 0 ≤ D := by
      rw [hDdef]
      refine List.sum_nonneg ?_
      intro x hx
      obtain ⟨s2, hs2, rfl⟩ := List.mem_map.mp hx
      exact hdem s2 hs2
    rw [hrc, min_eq_left hD0]
    rfl

/-- Every entry of the serve loop's result is a positive delivery, bounded
by the station's remaining demand, to a station of the input list. -/
theorem serveLoop_entries (dist : Station → ℚ) (dem : ℕ → ℚ)
    (rc : ℚ) (unvisited : List Station) :
    ∀ e ∈ serveLoop dist dem rc unvisited,
      0 < e.2 ∧ e.2 ≤ dem e.1 ∧ e.1 ∈ unvisited.map Station.id := by
  induction rc, unvisited using serveLoop.induct dist dem with
  | case1 rc =>
    rw [serveLoop]
    simp
  | case2 rc s rest h1 h2 ih =>
    intro e he
    rw [serveLoop, if_pos h1, if_pos h2] at he
    rcases List.mem_cons.mp he with rfl | he2
    · refine ⟨h2, min_le_right _ _, ?_⟩
      exact List.mem_map_of_mem _ (pyMin_mem dist s rest)
    · obtain ⟨hp, hle, hm⟩ := ih e he2
      refine ⟨hp, hle, ?_⟩
      exact ((List.erase_sublist _ _).map Station.id).mem hm
  | case3 rc s rest h1 h2 ih =>
    intro e he
    rw [serveLoop, if_pos h1, if_neg h2] at he
    obtain ⟨hp, hle, hm⟩ := ih e he
    refine ⟨hp, hle, ?_⟩
    exact ((List.erase_sublist _ _).map Station.id).mem hm
  | case4 rc s rest h1 =>
    rw [serveLoop, if_neg h1]
    simp

/-- **C2** (MiniRoute load invariant).  For every MiniRoute the assembler
produces (given non-negative remaining demands for the listed stations),
`load_quantity ≤ truck.capacity`, `load_quantity ≤ depot.stock[product]`,
and the delivered quantities sum exactly to `load_quantity`. -/
theorem C2_mini_route_load (dist : DistFn) (truck : Truck) (depot : Depot)
    (product : ℕ) (stations : List Station) (remaining : ℕ × ℕ → ℚ)
    (mr : MiniRoute)
    (hdem : ∀ s ∈ stations, 0 ≤ remaining (s.id, product))
    (h : _build_mini_route dist truck depot product stations remaining =
      some mr) :
    mr.load_quantity ≤ truck.capacity ∧
      mr.load_quantity ≤ dget depot.stock product ∧
      (mr.stations.map Prod.snd).sum = mr.load_quantity := by
  unfold _build_mini_route at h
  set L := min truck.capacity
    (min ((stations.map (fun s => remaining (s.id, product))).sum)
      (dget depot.stock product)) with hLdef
  set srv := serveLoop (fun s => dist .depot depot.id .station s.id)
    (fun sid => remaining (sid, product)) L stations with hsrvdef
  by_cases hpos : 0 < L
  · rw [if_pos hpos] at h
    by_cases hnil : srv = []
    · rw [if_pos hnil] at h
      exact Option.noConfusion h
    · rw [if_neg hnil] at h
      have hmr := (Option.some.injEq _ _).mp h
      subst hmr
      refine ⟨min_le_left _ _,
        le_trans (min_le_right _ _) (min_le_right _ _), ?_⟩
      have hsum := serveLoop_sum
        (fun s => dist .depot depot.id .station s.id)
        (fun sid => remaining (sid, product)) L stations (le_of_lt hpos)
        (by intro s hs; exact hdem s hs)
      rw [← hsrvdef] at hsum
      show (srv.map Prod.snd).sum = L
      rw [hsum]
      exact min_eq_left (le_trans (min_le_right _ _) (min_le_left _ _))
  · rw [if_neg hpos] at h
    exact Option.noConfusion h

/-- Inputs of the C2/C8 witnesses: capacity 50, depot stock 100, one
station with remaining demand 30. -/
def wTruck : Truck := { id := 1, capacity := 50, garage_id := 1 }

def wDepot : Depot :=
  { id := 1, location := { id := 1, x := 0, y := 0 }, stock := [(0, 100)] }

def wStation : Station :=
  { id := 1, location := { id := 1, x := 1, y := 0 }, demand := [(0, 30)] }

def wRem : ℕ × ℕ → ℚ := fun key => if key = (1, 0) then 30 else 0

def wDist : DistFn := fun _ _ _ _ => 0

def wMini : MiniRoute :=
  { depot_id := 1, product_id := 0, load_quantity := 30,
    stations := [(1, 30)] }

theorem wBuild :
    _build_mini_route wDist wTruck wDepot 0 [wStation] wRem = some wMini := by
  unfold _build_mini_route
  norm_num [dget, wRem, wStation, wTruck, wDepot, wDist, wMini, serveLoop,
    pyMin, List.erase_cons_head]

/-- Witness for C2 on the concrete inputs above. -/
theorem C2_mini_route_load_witness :
    wMini.load_quantity ≤ wTruck.capacity ∧
      wMini.load_quantity ≤ dget wDepot.stock 0 ∧
      (wMini.stations.map Prod.snd).sum = wMini.load_quantity := by
  refine C2_mini_route_load wDist wTruck wDepot 0 [wStation] wRem wMini
    ?_ wBuild
  intro s hs
  rw [List.mem_singleton] at hs
  subst hs
  norm_num [wRem, wStation]

/-! ### C8: the spec-side serve sequence

The spec describes the assembly loop as "repeatedly pick the unvisited
station nearest to the depot".  `specNearest` picks the first station (in
list order) whose distance is ≤ every listed station's distance — the
natural reading of "nearest, first encountered wins" — and `specServe` is
the loop written from the spec's words (with an explicit fuel equal to the
station count, which the loop never exhausts since every iteration removes
one station).  C8 proves the code's loop (`serveLoop`, built on Python
`min`) equal to it. -/

/-- First station attaining the minimal distance. -/
def specNearest (f : Station → ℚ) (l : List Station) : Option Station :=
  l.find? (fun s => l.all (fun s2 => f s ≤ f s2))

/-- `pyMin` decomposes its input as: strictly-greater prefix, the chosen
minimum, and a ≥ suffix (first minimal element wins). -/
theorem pyMin_decomp (f : Station → ℚ) :
    ∀ (rest : List Station) (s : Station),
      ∃ l1 l2, s :: rest = l1 ++ pyMin f s rest :: l2 ∧
        (∀ x ∈ l1, f (pyMin f s rest) < f x) ∧
        (∀ x ∈ l2, f (pyMin f s rest) ≤ f x) := by
  intro rest
  induction rest with
  | nil =>
    intro s
    refine ⟨[], [], rfl, by simp, by simp⟩
  | cons y ys ih =>
    intro s
    have hstep : pyMin f s (y :: ys) =
        pyMin f (if f y < f s then y else s) ys := by
      rw [pyMin, pyMin, List.foldl_cons]
    by_cases hy : f y < f s
    · rw [if_pos hy] at hstep
      obtain ⟨l1, l2, hdec, hstrict, hle⟩ := ih y
      have hmy : f (pyMin f y ys) ≤ f y := by
        have : y ∈ l1 ++ pyMin f y ys :: l2 := by
          rw [← hdec]
          exact List.mem_cons_self _ _
        rcases List.mem_append.mp this with h | h
        · exact le_of_lt (hstrict y h)
        · rcases List.mem_cons.mp h with h | h
          · exact le_of_eq (congrArg f h.symm)
          · exact hle y h
      refine ⟨s :: l1, l2, ?_, ?_, ?_⟩
      · rw [hstep, List.cons_append, ← hdec]
      · intro x hx
        rw [hstep]
        rcases List.mem_cons.mp hx with rfl | hx
        · exact lt_of_le_of_lt hmy hy
        · exact hstrict x hx
      · intro x hx
        rw [hstep]
        exact hle x hx
    · rw [if_neg hy] at hstep
      obtain ⟨l1, l2, hdec, hstrict, hle⟩ := ih s
      cases l1 with
      | nil =>
        simp only [List.nil_append] at hdec
        have hm : pyMin f s ys = s := (List.cons.injEq _ _ _ _).mp hdec |>.1.symm
        have hl2 : l2 = ys := (List.cons.injEq _ _ _ _).mp hdec |>.2.symm
        refine ⟨[], y :: ys, ?_, by simp, ?_⟩
        · rw [hstep, hm, List.nil_append]
        · intro x hx
          rw [hstep, hm]
          rcases List.mem_cons.mp hx with rfl | hx
          · exact not_lt.mp hy
          · rw [← hl2] at hx
            have := hle x hx
            rw [hm] at this
            exact this
      | cons a l1' =>
        rw [List.cons_append] at hdec
        have ha : a = s := ((List.cons.injEq _ _ _ _).mp hdec).1.symm
        have hys : ys = l1' ++ pyMin f s ys :: l2 :=
          ((List.cons.injEq _ _ _ _).mp hdec).2
        have hms : f (pyMin f s ys) < f s := by
          refine hstrict s ?_
          rw [← ha]
          exact List.mem_cons_self _ _
        refine ⟨s :: y :: l1', l2, ?_, ?_, ?_⟩
        · rw [hstep, List.cons_append, List.cons_append, ← hys]
        · intro x hx
          rw [hstep]
          rcases List.mem_cons.mp hx with rfl | hx
          · exact hms
          rcases List.mem_cons.mp hx with rfl | hx
          · exact lt_of_lt_of_le hms (not_lt.mp hy)
          · exact hstrict x (List.mem_cons_of_mem _ hx)
        · intro x hx
          rw [hstep]
          exact hle x hx

theorem find?_append_of_none {α : Type} {p : α → Bool} {l1 l2 : List α}
    (h : l1.find? p = none) : (l1 ++ l2).find? p = l2.find? p := by
  induction l1 with
  | nil => rfl
  | cons a l ih =>
    rw [List.find?_eq_none] at h
    rw [List.cons_append, List.find?_cons_of_neg _ (h a (List.mem_cons_self _ _))]
    refine ih ?_
    rw [List.find?_eq_none]
    intro x hx
    exact h x (List.mem_cons_of_mem _ hx)

/-- On a non-empty list, the spec's "nearest station" is exactly Python's
`min`. -/
theorem specNearest_cons (f : Station → ℚ) (s : Station)
    (rest : List Station) :
    specNearest f (s :: rest) = some (pyMin f s rest) := by
  obtain ⟨l1, l2, hdec, hstrict, hle⟩ := pyMin_decomp f rest s
  unfold specNearest
  rw [hdec]
  have h1 : l1.find? (fun s2 =>
      (l1 ++ pyMin f s rest :: l2).all (fun s3 => f s2 ≤ f s3)) = none := by
    rw [List.find?_eq_none]
    intro x hx
    simp only [List.all_eq_true, decide_eq_true_eq, not_forall]
    refine ⟨pyMin f s rest, ?_, not_le.mpr (hstrict x hx)⟩
    exact List.mem_append.mpr (Or.inr (List.mem_cons_self _ _))
  rw [find?_append_of_none h1]
  rw [List.find?_cons_of_pos]
  simp only [List.all_eq_true, decide_eq_true_eq]
  intro s3 hs3
  rcases List.mem_append.mp hs3 with h | h
  · exact le_of_lt (hstrict s3 h)
  · rcases List.mem_cons.mp h with rfl | h
    · exact le_refl _
    · exact hle s3 h

/-- The serve loop as the spec words it, with explicit fuel (one unit per
station; never exhausted). -/
def specServeAux (dist : Station → ℚ) (dem : ℕ → ℚ) :
    ℕ → ℚ → List Station → List (ℕ × ℚ)
  | 0, _, _ => []
  | fuel + 1, rc, unvisited =>
    match specNearest dist unvisited with
    | none => []
    | some nearest =>
      if 0 < rc then
        if 0 < min rc (dem nearest.id) then
          (nearest.id, min rc (dem nearest.id)) ::
            specServeAux dist dem fuel
              (rc - min rc (dem nearest.id)) (unvisited.erase nearest)
        else specServeAux dist dem fuel rc (unvisited.erase nearest)
      else []

/-- The spec-side serve sequence. -/
def specServe (dist : Station → ℚ) (dem : ℕ → ℚ) (rc : ℚ)
    (unvisited : List Station) : List (ℕ × ℚ) :=
  specServeAux dist dem unvisited.length rc unvisited

/-- The code's serve loop equals the spec's serve sequence. -/
theorem serveLoop_eq_specServe (dist : Station → ℚ) (dem : ℕ → ℚ)
    (rc : ℚ) (unvisited : List Station) :
    serveLoop dist dem rc unvisited = specServe dist dem rc unvisited := by
  suffices h : ∀ fuel rc2 l, l.length ≤ fuel →
      serveLoop dist dem rc2 l = specServeAux dist dem fuel rc2 l by
    exact h unvisited.length rc unvisited (le_refl _)
  intro fuel
  induction fuel with
  | zero =>
    intro rc2 l hl
    rw [Nat.le_zero, List.length_eq_zero] at hl
    subst hl
    rw [serveLoop, specServeAux]
  | succ fuel ih =>
    intro rc2 l hl
    cases l with
    | nil =>
      rw [serveLoop, specServeAux]
      rfl
    | cons s rest =>
      rw [serveLoop, specServeAux]
      simp only [specNearest_cons]
      have hm : pyMin dist s rest ∈ s :: rest := pyMin_mem dist s rest
      have hlen : ((s :: rest).erase (pyMin dist s rest)).length ≤ fuel := by
        rw [List.length_erase_of_mem hm]
        simp only [List.length_cons] at hl ⊢
        omega
      by_cases h1 : 0 < rc2
      · rw [if_pos h1, if_pos h1]
        by_cases h2 : 0 < min rc2 (dem (pyMin dist s rest).id)
        · rw [if_pos h2, if_pos h2, ih _ _ hlen]
        · rw [if_neg h2, if_neg h2, ih _ _ hlen]
      · rw [if_neg h1, if_neg h1]

/-- **C8** (Route assembler sequencing).  Every MiniRoute the assembler
produces delivers, in order, exactly the spec's sequence: repeatedly pick
the not-yet-visited station nearest to the depot (always measured from the
depot), deliver min(remaining capacity, that station's remaining demand),
decrement remaining capacity, stop when capacity is exhausted or stations
run out — and every recorded delivery is positive (a station receiving no
positive delivery is omitted). -/
theorem C8_route_assembler (dist : DistFn) (truck : Truck) (depot : Depot)
    (product : ℕ) (stations : List Station) (remaining : ℕ × ℕ → ℚ)
    (mr : MiniRoute)
    (h : _build_mini_route dist truck depot product stations remaining =
      some mr) :
    mr.stations = specServe (fun s => dist .depot depot.id .station s.id)
        (fun sid => remaining (sid, product)) mr.load_quantity stations
      ∧ ∀ e ∈ mr.stations, 0 < e.2 := by
  unfold _build_mini_route at h
  set L := min truck.capacity
    (min ((stations.map (fun s => remaining (s.id, product))).sum)
      (dget depot.stock product)) with hLdef
  set srv := serveLoop (fun s => dist .depot depot.id .station s.id)
    (fun sid => remaining (sid, product)) L stations with hsrvdef
  by_cases hpos : 0 < L
  · rw [if_pos hpos] at h
    by_cases hnil : srv = []
    · rw [if_pos hnil] at h
      exact Option.noConfusion h
    · rw [if_neg hnil] at h
      have hmr := (Option.some.injEq _ _).mp h
      subst hmr
      constructor
      · show srv = specServe _ _ L stations
        rw [hsrvdef]
        exact serveLoop_eq_specServe _ _ _ _
      · intro e he
        exact (serveLoop_entries _ _ _ _ e he).1
  · rw [if_neg hpos] at h
    exact Option.noConfusion h

/-- Witness for C8 on the C2 witness inputs. -/
theorem C8_route_assembler_witness :
    wMini.stations = specServe (fun s => wDist .depot wDepot.id .station s.id)
        (fun sid => wRem (sid, 0)) wMini.load_quantity [wStation]
      ∧ ∀ e ∈ wMini.stations, 0 < e.2 :=
  C8_route_assembler wDist wTruck wDepot 0 [wStation] wRem wMini wBuild

/-! ### C7: the greedy selection rule -/

/-- Decompose a list at its first element satisfying `p`. -/
theorem exists_first_decomp {α : Type} {p : α → Prop} [DecidablePred p]
    {l : List α} (h : ∃ t ∈ l, p t) :
    ∃ T1 t T2, l = T1 ++ t :: T2 ∧ (∀ t2 ∈ T1, ¬ p t2) ∧ p t := by
  induction l with
  | nil => simp at h
  | cons a rest ih =>
    by_cases ha : p a
    · exact ⟨[], a, rest, rfl, by simp, ha⟩
    · obtain ⟨t, ht, hpt⟩ := h
      rcases List.mem_cons.mp ht with rfl | ht
      · exact absurd hpt ha
      · obtain ⟨T1, t2, T2, hdec, hT1, hp2⟩ := ih ⟨t, ht, hpt⟩
        refine ⟨a :: T1, t2, T2, by rw [hdec, List.cons_append], ?_, hp2⟩
        intro t3 ht3
        rcases List.mem_cons.mp ht3 with rfl | ht3
        · exact ha
        · exact hT1 t3 ht3

section TruckFold

variable (dist : DistFn) (product : ℕ) (depot : Depot) (rem : ℕ × ℕ → ℚ)
  (load : ℕ → ℚ) (station : Station)

/-- The inner `for truck in trucks` fold of the greedy scan. -/
def truckFold (trucks : List Truck) (st : ScanState) : ScanState :=
  trucks.foldl (fun st2 t =>
    if load t.id + rem (station.id, product) ≤ t.capacity then
      if ((dist .depot depot.id .station station.id : ℚ) : WithTop ℚ) <
          st2.best_cost then
        { st2 with
            best_cost :=
              ((dist .depot depot.id .station station.id : ℚ) : WithTop ℚ),
            best := some (t.id, station) }
      else st2
    else st2) st

/-- If no truck is feasible for the scanned station, the fold is a no-op. -/
theorem truckFold_no_feasible (trucks : List Truck) (st : ScanState)
    (h : ∀ t ∈ trucks, ¬ load t.id + rem (station.id, product) ≤ t.capacity) :
    truckFold dist product depot rem load station trucks st = st := by
  induction trucks with
  | nil => rfl
  | cons t ts ih =>
    rw [truckFold, List.foldl_cons, if_neg (h t (List.mem_cons_self _ _))]
    exact ih (fun t2 ht2 => h t2 (List.mem_cons_of_mem _ ht2))

/-- If the station is not strictly closer than the current best, the fold
is a no-op. -/
theorem truckFold_not_closer (trucks : List Truck) (st : ScanState)
    (h : ¬ ((dist .depot depot.id .station station.id : ℚ) : WithTop ℚ) <
      st.best_cost) :
    truckFold dist product depot rem load station trucks st = st := by
  induction trucks with
  | nil => rfl
  | cons t ts ih =>
    rw [truckFold, List.foldl_cons]
    by_cases h1 : load t.id + rem (station.id, product) ≤ t.capacity
    · rw [if_pos h1, if_neg h]
      exact ih
    · rw [if_neg h1]
      exact ih

/-- If some truck is feasible and the station is strictly closer than the
current best, the fold assigns the scanned station to the first feasible
truck. -/
theorem truckFold_assigns (T1 : List Truck) (t : Truck) (T2 : List Truck)
    (st : ScanState)
    (hT1 : ∀ t2 ∈ T1, ¬ load t2.id + rem (station.id, product) ≤ t2.capacity)
    (ht : load t.id + rem (station.id, product) ≤ t.capacity)
    (hlt : ((dist .depot depot.id .station station.id : ℚ) : WithTop ℚ) <
      st.best_cost) :
    truckFold dist product depot rem load station (T1 ++ t :: T2) st =
      { st with
          best_cost :=
            ((dist .depot depot.id .station station.id : ℚ) : WithTop ℚ),
          best := some (t.id, station) } := by
  induction T1 with
  | nil =>
    rw [List.nil_append, truckFold, List.foldl_cons, if_pos ht, if_pos hlt]
    have := truckFold_not_closer dist product depot rem load station T2
      { st with
          best_cost :=
            ((dist .depot depot.id .station station.id : ℚ) : WithTop ℚ),
          best := some (t.id, station) } (by simp)
    rw [truckFold] at this
    exact this
  | cons t0 T1' ih =>
    rw [List.cons_append, truckFold, List.foldl_cons,
      if_neg (hT1 t0 (List.mem_cons_self _ _))]
    have := ih (fun t2 ht2 => hT1 t2 (List.mem_cons_of_mem _ ht2))
    rw [truckFold] at this
    exact this

end TruckFold

/-- When the looked-up station has positive remaining demand, one scan
iteration is exactly the truck fold. -/
theorem scanStation_eq_truckFold (dist : DistFn) (product : ℕ)
    (stations : List Station) (trucks : List Truck) (depot : Depot)
    (rem : ℕ × ℕ → ℚ) (load : ℕ → ℚ) (st : ScanState) (sid : ℕ)
    (station : Station)
    (hfind : stations.find? (fun s2 => s2.id == sid) = some station)
    (hpos : ¬ rem (station.id, product) ≤ 0) :
    scanStation dist product stations trucks depot rem load st sid =
      truckFold dist product depot rem load station trucks st := by
  unfold scanStation
  simp only [hfind]
  rw [if_neg hpos]
  rfl

/-- A station id is feasible for the round when some truck can absorb its
remaining demand on top of its current load. -/
def feasStation (product : ℕ) (trucks : List Truck) (rem : ℕ × ℕ → ℚ)
    (load : ℕ → ℚ) (sid : ℕ) : Prop :=
  ∃ t ∈ trucks, load t.id + rem (sid, product) ≤ t.capacity

/-- Characterization of the scan state after scanning the prefix `pfx` of
the snapshot: either no feasible pair was seen, or the best assignment is
the first feasible truck for the first станция attaining the minimal
distance among feasible stations seen so far. -/
def ScanInv (dist : DistFn) (product : ℕ) (stations : List Station)
    (trucks : List Truck) (depot : Depot) (rem : ℕ × ℕ → ℚ) (load : ℕ → ℚ)
    (unvisited pfx : List ℕ) (st : ScanState) : Prop :=
  st.unvisited = unvisited ∧
  ((st.best = none ∧ st.best_cost = ⊤ ∧
      ∀ sid ∈ pfx, ¬ feasStation product trucks rem load sid)
   ∨ (∃ tid stn, st.best = some (tid, stn) ∧
        st.best_cost =
          ((dist .depot depot.id .station stn.id : ℚ) : WithTop ℚ) ∧
        stations.find? (fun s2 => s2.id == stn.id) = some stn ∧
        (∃ T1 t T2, trucks = T1 ++ t :: T2 ∧ t.id = tid ∧
          load t.id + rem (stn.id, product) ≤ t.capacity ∧
          ∀ t2 ∈ T1, ¬ load t2.id + rem (stn.id, product) ≤ t2.capacity) ∧
        (∃ p1 p2, pfx = p1 ++ stn.id :: p2 ∧
          (∀ sid ∈ p1, feasStation product trucks rem load sid →
            dist .depot depot.id .station stn.id <
              dist .depot depot.id .station sid) ∧
          (∀ sid ∈ p2, feasStation product trucks rem load sid →
            dist .depot depot.id .station stn.id ≤
              dist .depot depot.id .station sid))))

theorem scanFold_inv (dist : DistFn) (product : ℕ)
    (stations : List Station) (trucks : List Truck) (depot : Depot)
    (rem : ℕ × ℕ → ℚ) (load : ℕ → ℚ) (unvisited : List ℕ)
    (pfx : List ℕ)
    (hstn : ∀ sid ∈ pfx, ∃ s,
      stations.find? (fun s2 => s2.id == sid) = some s ∧
        0 < rem (sid, product)) :
    ScanInv dist product stations trucks depot rem load unvisited pfx
      (pfx.foldl (scanStation dist product stations trucks depot rem load)
        { unvisited := unvisited, best_cost := ⊤, best := none }) := by
  induction pfx using List.reverseRecOn with
  | nil =>
    exact ⟨rfl, Or.inl ⟨rfl, rfl, by simp⟩⟩
  | append_singleton pfx sid ih =>
    have hpfx : ∀ sid2 ∈ pfx, ∃ s,
        stations.find? (fun s2 => s2.id == sid2) = some s ∧
          0 < rem (sid2, product) :=
      fun sid2 h2 => hstn sid2 (List.mem_append.mpr (Or.inl h2))
    obtain ⟨s, hfind, hpos⟩ := hstn sid (List.mem_append.mpr (Or.inr
      (List.mem_singleton.mpr rfl)))
    have hid : s.id = sid := by
      have := List.find?_some hfind
      simpa using this
    obtain ⟨hunv, hbest⟩ := ih hpfx
    rw [List.foldl_append, List.foldl_cons, List.foldl_nil,
      scanStation_eq_truckFold dist product stations trucks depot rem load
        _ sid s hfind (by rw [hid]; exact not_le.mpr hpos)]
    set st := pfx.foldl
      (scanStation dist product stations trucks depot rem load)
      { unvisited := unvisited, best_cost := ⊤, best := none } with hstdef
    rcases hbest with ⟨hb, hc, hall⟩ | ⟨tid, stn, hb, hc, hfindstn,
        ⟨T1, t, T2, htdec, htid, htfeas, hT1⟩, ⟨p1, p2, hdec, hstrict, hle⟩⟩
    · by_cases hfeas : feasStation product trucks rem load sid
      · have hfeas2 : ∃ t2 ∈ trucks,
            load t2.id + rem (sid, product) ≤ t2.capacity := hfeas
        obtain ⟨U1, u, U2, hudec, hU1, hufeas⟩ :=
          exists_first_decomp (p := fun t2 =>
            load t2.id + rem (sid, product) ≤ t2.capacity) hfeas2
        have hassign : truckFold dist product depot rem load s trucks st =
            { st with
                best_cost :=
                  ((dist .depot depot.id .station s.id : ℚ) : WithTop ℚ),
                best := some (u.id, s) } := by
          rw [hudec]
          exact truckFold_assigns dist product depot rem load s U1 u U2 st
            (by intro t2 ht2; rw [hid]; exact hU1 t2 ht2)
            (by rw [hid]; exact hufeas)
            (by rw [hc]; exact WithTop.coe_lt_top _)
        rw [hassign]
        refine ⟨hunv, Or.inr ⟨u.id, s, rfl, rfl, ?_, ?_, pfx, [], ?_, ?_, by simp⟩⟩
        · rw [hid]
          exact hfind
        · exact ⟨U1, u, U2, hudec, rfl, by rw [hid]; exact hufeas,
            by intro t2 ht2; rw [hid]; exact hU1 t2 ht2⟩
        · rw [hid]
        · intro sid2 h2 hf2
          exact absurd hf2 (hall sid2 h2)
      · rw [truckFold_no_feasible dist product depot rem load s trucks st
          (by
            intro t2 ht2 hfeas2
            refine hfeas ⟨t2, ht2, ?_⟩
            rw [← hid]
            exact hfeas2)]
        refine ⟨hunv, Or.inl ⟨hb, hc, ?_⟩⟩
        intro sid2 h2
        rcases List.mem_append.mp h2 with h2 | h2
        · exact hall sid2 h2
        · rw [List.mem_singleton.mp h2]
          exact hfeas
    · by_cases hfeas : feasStation product trucks rem load sid
      · by_cases hcl : dist .depot depot.id .station sid <
            dist .depot depot.id .station stn.id
        · have hfeas2 : ∃ t2 ∈ trucks,
              load t2.id + rem (sid, product) ≤ t2.capacity := hfeas
          obtain ⟨U1, u, U2, hudec, hU1, hufeas⟩ :=
            exists_first_decomp (p := fun t2 =>
              load t2.id + rem (sid, product) ≤ t2.capacity) hfeas2
          have hassign : truckFold dist product depot rem load s trucks st =
              { st with
                  best_cost :=
                    ((dist .depot depot.id .station s.id : ℚ) : WithTop ℚ),
                  best := some (u.id, s) } := by
            rw [hudec]
            exact truckFold_assigns dist product depot rem load s U1 u U2 st
              (by intro t2 ht2; rw [hid]; exact hU1 t2 ht2)
              (by rw [hid]; exact hufeas)
              (by
                rw [hc, hid]
                exact_mod_cast hcl)
          rw [hassign]
          refine ⟨hunv, Or.inr ⟨u.id, s, rfl, rfl, ?_, ?_, pfx, [], ?_, ?_,
            by simp⟩⟩
          · rw [hid]
            exact hfind
          · exact ⟨U1, u, U2, hudec, rfl, by rw [hid]; exact hufeas,
              by intro t2 ht2; rw [hid]; exact hU1 t2 ht2⟩
          · rw [hid]
          · intro sid2 h2 hf2
            rw [hid]
            rw [hdec] at h2
            rcases List.mem_append.mp h2 with h2 | h2
            · exact lt_trans hcl (hstrict sid2 h2 hf2)
            · rcases List.mem_cons.mp h2 with rfl | h2
              · exact hcl
              · exact lt_of_lt_of_le hcl (hle sid2 h2 hf2)
        · rw [truckFold_not_closer dist product depot rem load s trucks st
            (by
              rw [hc, hid]
              intro hcontra
              exact hcl (by exact_mod_cast hcontra))]
          refine ⟨hunv, Or.inr ⟨tid, stn, hb, hc, hfindstn,
            ⟨T1, t, T2, htdec, htid, htfeas, hT1⟩,
            p1, p2 ++ [sid], ?_, hstrict, ?_⟩⟩
          · rw [hdec, List.append_assoc, List.cons_append]
          · intro sid2 h2 hf2
            rcases List.mem_append.mp h2 with h2 | h2
            · exact hle sid2 h2 hf2
            · rw [List.mem_singleton.mp h2]
              exact not_lt.mp hcl
      · rw [truckFold_no_feasible dist product depot rem load s trucks st
          (by
            intro t2 ht2 hfeas2
            refine hfeas ⟨t2, ht2, ?_⟩
            rw [← hid]
            exact hfeas2)]
        refine ⟨hunv, Or.inr ⟨tid, stn, hb, hc, hfindstn,
          ⟨T1, t, T2, htdec, htid, htfeas, hT1⟩,
          p1, p2 ++ [sid], ?_, hstrict, ?_⟩⟩
        · rw [hdec, List.append_assoc, List.cons_append]
        · intro sid2 h2 hf2
          rcases List.mem_append.mp h2 with h2 | h2
          · exact hle sid2 h2 hf2
          · rw [List.mem_singleton.mp h2] at hf2
            exact absurd hf2 hfeas

/-- **C7** (Greedy fallback selection rule).  On each iteration (any scan
state reachable in the loop), provided every unvisited id resolves to a
station with positive remaining demand (which the round guarantees): the
scan finds no assignment iff no (unvisited station, truck) pair satisfies
`truckLoad + remainingDemand ≤ capacity`; any assignment it finds is the
pair minimizing `distance(depot, station)` over feasible stations, ties
broken by the iteration order of the stations then the trucks (first
encountered wins); the loop then applies exactly that assignment, and it
stops — leaving remaining stations unassigned — as soon as no feasible pair
exists. -/
theorem C7_greedy_selection (dist : DistFn) (product : ℕ)
    (stations : List Station) (trucks : List Truck) (depot : Depot)
    (rem : ℕ × ℕ → ℚ) (load : ℕ → ℚ) (unvisited : List ℕ)
    (routes : ℕ → List Station)
    (hstn : ∀ sid ∈ unvisited, ∃ s,
      stations.find? (fun s2 => s2.id == sid) = some s ∧
        0 < rem (sid, product)) :
    ((greedyScan dist product stations trucks depot rem load
        unvisited).best = none ↔
      ∀ sid ∈ unvisited, ¬ feasStation product trucks rem load sid)
    ∧ (∀ tid stn, (greedyScan dist product stations trucks depot rem load
        unvisited).best = some (tid, stn) →
        stn.id ∈ unvisited
        ∧ stations.find? (fun s2 => s2.id == stn.id) = some stn
        ∧ (∃ T1 t T2, trucks = T1 ++ t :: T2 ∧ t.id = tid ∧
            load t.id + rem (stn.id, product) ≤ t.capacity ∧
            ∀ t2 ∈ T1, ¬ load t2.id + rem (stn.id, product) ≤ t2.capacity)
        ∧ (∃ p1 p2, unvisited = p1 ++ stn.id :: p2 ∧
            (∀ sid ∈ p1, feasStation product trucks rem load sid →
              dist .depot depot.id .station stn.id <
                dist .depot depot.id .station sid) ∧
            (∀ sid ∈ p2, feasStation product trucks rem load sid →
              dist .depot depot.id .station stn.id ≤
                dist .depot depot.id .station sid)))
    ∧ ((greedyScan dist product stations trucks depot rem load
        unvisited).best = none →
        greedyLoop dist product stations trucks depot rem unvisited routes
          load = (routes, load))
    ∧ (∀ tid stn, (greedyScan dist product stations trucks depot rem load
        unvisited).best = some (tid, stn) →
        greedyLoop dist product stations trucks depot rem unvisited routes
          load =
          greedyLoop dist product stations trucks depot rem
            (((greedyScan dist product stations trucks depot rem load
                unvisited).unvisited).erase stn.id)
            (fun k => if k = tid then routes tid ++ [stn] else routes k)
            (fun k => if k = tid then load tid + rem (stn.id, product)
                      else load k)) := by
  have hinv : ScanInv dist product stations trucks depot rem load unvisited
      unvisited (greedyScan dist product stations trucks depot rem load
        unvisited) :=
    scanFold_inv dist product stations trucks depot rem load unvisited
      unvisited hstn
  obtain ⟨hunv, hbest⟩ := hinv
  refine ⟨?_, ?_, ?_, ?_⟩
  · constructor
    · intro hnone
      rcases hbest with ⟨_, _, hall⟩ | ⟨tid, stn, hb, _⟩
      · exact hall
      · rw [hnone] at hb
        exact Option.noConfusion hb
    · intro hall
      rcases hbest with ⟨hb, _, _⟩ | ⟨tid, stn, hb, hc, hfind,
          ⟨T1, t, T2, htdec, _, htfeas, _⟩, ⟨p1, p2, hdec, _, _⟩⟩
      · exact hb
      · exfalso
        have hmem : stn.id ∈ unvisited := by
          rw [hdec]
          exact List.mem_append.mpr (Or.inr (List.mem_cons_self _ _))
        refine hall stn.id hmem ⟨t, ?_, htfeas⟩
        rw [htdec]
        exact List.mem_append.mpr (Or.inr (List.mem_cons_self _ _))
  · intro tid stn h
    rcases hbest with ⟨hb, _, _⟩ | ⟨tid2, stn2, hb, hc, hfind, htr, hspec⟩
    · rw [h] at hb
      exact Option.noConfusion hb
    · rw [h] at hb
      have heq := Option.some.inj hb
      have htid : tid2 = tid := ((Prod.mk.injEq _ _ _ _).mp heq |>.1).symm
      have hstn : stn2 = stn := ((Prod.mk.injEq _ _ _ _).mp heq |>.2).symm
      subst htid
      subst hstn
      obtain ⟨p1, p2, hdec, hstrict, hle⟩ := hspec
      refine ⟨?_, hfind, htr, p1, p2, hdec, hstrict, hle⟩
      rw [hdec]
      exact List.mem_append.mpr (Or.inr (List.mem_cons_self _ _))
  · intro hnone
    cases unvisited with
    | nil => rw [greedyLoop]
    | cons u0 urest =>
      rw [greedyLoop]
      split
      next ts heq =>
        rw [hnone] at heq
        exact Option.noConfusion heq
      next => rfl
  · intro tid stn h
    cases unvisited with
    | nil => exact Option.noConfusion h
    | cons u0 urest =>
      rw [greedyLoop]
      split
      next ts heq =>
        rw [h] at heq
        have := Option.some.inj heq
        rw [← this]
      next heq =>
        rw [h] at heq
        exact Option.noConfusion heq

/-- Load and route maps of the C7 witness. -/
def wLoad : ℕ → ℚ := fun _ => 0

def wRoutes : ℕ → List Station := fun _ => []

/-- Witness for C7: on a one-station, one-truck input the scan assigns
station 1 to truck 1, and the characterization evaluates. -/
theorem C7_greedy_selection_witness :
    wStation.id ∈ [1]
      ∧ [wStation].find? (fun s2 => s2.id == wStation.id) = some wStation
      ∧ (∃ T1 t T2, [wTruck] = T1 ++ t :: T2 ∧ t.id = 1 ∧
          wLoad t.id + wRem (wStation.id, 0) ≤ t.capacity ∧
          ∀ t2 ∈ T1, ¬ wLoad t2.id + wRem (wStation.id, 0) ≤ t2.capacity)
      ∧ (∃ p1 p2, [1] = p1 ++ wStation.id :: p2 ∧
          (∀ sid ∈ p1, feasStation 0 [wTruck] wRem wLoad sid →
            wDist .depot wDepot.id .station wStation.id <
              wDist .depot wDepot.id .station sid) ∧
          (∀ sid ∈ p2, feasStation 0 [wTruck] wRem wLoad sid →
            wDist .depot wDepot.id .station wStation.id ≤
              wDist .depot wDepot.id .station sid)) := by
  refine (C7_greedy_selection wDist 0 [wStation] [wTruck] wDepot wRem wLoad
    [1] wRoutes ?_).2.1 1 wStation ?_
  · intro sid hsid
    rw [List.mem_singleton] at hsid
    subst hsid
    refine ⟨wStation, rfl, ?_⟩
    norm_num [wRem]
  · show (greedyScan wDist 0 [wStation] [wTruck] wDepot wRem wLoad [1]).best
      = some (1, wStation)
    norm_num [greedyScan, scanStation, truckFold, wDist, wStation, wTruck,
      wDepot, wRem, wLoad]

/-! ## C3: solution validation -/

/-- The `delivered` defaultdict of `validate_solution`: total quantity
delivered to a (station, product) pair across all routes' mini-routes. -/
def delivered (sol : List CompleteRoute) (sid p : ℕ) : ℚ :=
  (sol.map (fun r => (r.mini_routes.map (fun mr =>
    if mr.product_id = p
    then (mr.stations.map (fun sq => if sq.1 = sid then sq.2 else 0)).sum
    else 0)).sum)).sum

/-- The error strings of `validate_solution`, as structured tags. -/
inductive SolutionError where
  | demandMismatch (station product : ℕ)
  | capacityExceeded (truck : ℕ)
deriving DecidableEq, Repr

/-- The capacity errors of one route, given its resolved truck. -/
def routeCapErrors (truck : Truck) (r : CompleteRoute) :
    List SolutionError :=
  r.mini_routes.filterMap (fun mr =>
    if truck.capacity < mr.load_quantity
    then some (SolutionError.capacityExceeded truck.id) else none)

/-- The capacity check of `validate_solution`; `none` when some route's
truck id is not in the instance (the code's `next(...)` raises there). -/
def capacityErrors (inst : MPVRPCCInstance) :
    List CompleteRoute → Option (List SolutionError)
  | [] => some []
  | r :: rest =>
    match inst.trucks.find? (fun t => t.id == r.truck_id) with
    | none => none
    | some truck =>
      match capacityErrors inst rest with
      | none => none
      | some es => some (routeCapErrors truck r ++ es)

/-- `validate_solution`: demand satisfaction within absolute tolerance
0.01, and per-mini-route load ≤ truck capacity. -/
def validate_solution (inst : MPVRPCCInstance)
    (sol : List CompleteRoute) : Option (Bool × List SolutionError) :=
  let demandErrs := (inst.stations.map (fun s =>
    s.demand.filterMap (fun pd =>
      if (1/100 : ℚ) < |delivered sol s.id pd.1 - pd.2|
      then some (SolutionError.demandMismatch s.id pd.1) else none))).flatten
  match capacityErrors inst sol with
  | none => none
  | some capErrs =>
    let errors := demandErrs ++ capErrs
    some (errors.isEmpty, errors)

theorem capacityErrors_some (inst : MPVRPCCInstance)
    (sol : List CompleteRoute)
    (htr : ∀ r ∈ sol, ∃ t,
      inst.trucks.find? (fun t2 => t2.id == r.truck_id) = some t) :
    ∃ es, capacityErrors inst sol = some es ∧
      (es = [] ↔ ∀ r ∈ sol, ∀ t,
        inst.trucks.find? (fun t2 => t2.id == r.truck_id) = some t →
        ∀ mr ∈ r.mini_routes, mr.load_quantity ≤ t.capacity) := by
  induction sol with
  | nil =>
    refine ⟨[], rfl, ?_⟩
    simp
  | cons r rest ih =>
    obtain ⟨t, ht⟩ := htr r (List.mem_cons_self _ _)
    obtain ⟨es, hes, hiff⟩ := ih
      (fun r2 h2 => htr r2 (List.mem_cons_of_mem _ h2))
    refine ⟨routeCapErrors t r ++ es, ?_, ?_⟩
    · rw [capacityErrors, ht, hes]
    · rw [List.append_eq_nil]
      constructor
      · rintro ⟨h1, h2⟩ r2 hr2 t2 ht2 mr hmr
        rcases List.mem_cons.mp hr2 with rfl | hr2
        · rw [ht] at ht2
          have := Option.some.inj ht2
          subst this
          unfold routeCapErrors at h1
          rw [List.filterMap_eq_nil_iff] at h1
          have := h1 mr hmr
          rw [ite_some_eq_none] at this
          exact not_lt.mp this
        · exact (hiff.mp h2) r2 hr2 t2 ht2 mr hmr
      · intro h
        constructor
        · unfold routeCapErrors
          rw [List.filterMap_eq_nil_iff]
          intro mr hmr
          rw [ite_some_eq_none]
          exact not_lt.mpr (h r (List.mem_cons_self _ _) t ht mr hmr)
        · refine hiff.mpr ?_
          intro r2 hr2 t2 ht2 mr hmr
          exact h r2 (List.mem_cons_of_mem _ hr2) t2 ht2 mr hmr

/-- **C3** (Solution validation).  Under the (implicit) precondition that
every route's truck id resolves — otherwise the code raises —
`validate_solution` returns `(True, [])` iff every declared (station,
product) demand is met within 0.01 absolute tolerance by the summed
deliveries and every MiniRoute's load is within its truck's capacity
(checked per MiniRoute, not summed per CompleteRoute); otherwise it
returns `(False, es)` with `es` non-empty. -/
theorem C3_validate_solution (inst : MPVRPCCInstance)
    (sol : List CompleteRoute)
    (htr : ∀ r ∈ sol, ∃ t,
      inst.trucks.find? (fun t2 => t2.id == r.truck_id) = some t) :
    ∃ es, validate_solution inst sol = some (es.isEmpty, es) ∧
      (es = [] ↔
        ((∀ s ∈ inst.stations, ∀ pd ∈ s.demand,
            |delivered sol s.id pd.1 - pd.2| ≤ (1/100 : ℚ)) ∧
         (∀ r ∈ sol, ∀ t,
            inst.trucks.find? (fun t2 => t2.id == r.truck_id) = some t →
            ∀ mr ∈ r.mini_routes, mr.load_quantity ≤ t.capacity))) := by
  obtain ⟨capErrs, hcap, hcapiff⟩ := capacityErrors_some inst sol htr
  refine ⟨(inst.stations.map (fun s =>
      s.demand.filterMap (fun pd =>
        if (1/100 : ℚ) < |delivered sol s.id pd.1 - pd.2|
        then some (SolutionError.demandMismatch s.id pd.1) else none))).flatten
      ++ capErrs, ?_, ?_⟩
  · rw [validate_solution]
    rw [hcap]
  · rw [List.append_eq_nil]
    constructor
    · rintro ⟨h1, h2⟩
      refine ⟨?_, hcapiff.mp h2⟩
      intro s hs pd hpd
      rw [List.flatten_eq_nil_iff] at h1
      have := h1 _ (List.mem_map_of_mem _ hs)
      rw [List.filterMap_eq_nil_iff] at this
      have := this pd hpd
      rw [ite_some_eq_none] at this
      exact not_lt.mp this
    · rintro ⟨h1, h2⟩
      refine ⟨?_, hcapiff.mpr h2⟩
      rw [List.flatten_eq_nil_iff]
      intro l hl
      obtain ⟨s, hs, rfl⟩ := List.mem_map.mp hl
      rw [List.filterMap_eq_nil_iff]
      intro pd hpd
      rw [ite_some_eq_none]
      exact not_lt.mpr (h1 s hs pd hpd)

/-- The solution route of the C3 witness: deliver the sample station's full
demand (40 of product 0) with truck 1. -/
def wSolRoute : CompleteRoute :=
  { truck_id := 1, garage_id := 1,
    mini_routes := [{ depot_id := 1, product_id := 0, load_quantity := 40,
                      stations := [(1, 40)] }] }

/-- Witness for C3 on the sample instance and the one-route solution. -/
theorem C3_validate_solution_witness :
    ∃ es, validate_solution sampleInstance [wSolRoute] =
        some (es.isEmpty, es) ∧
      (es = [] ↔
        ((∀ s ∈ sampleInstance.stations, ∀ pd ∈ s.demand,
            |delivered [wSolRoute] s.id pd.1 - pd.2| ≤ (1/100 : ℚ)) ∧
         (∀ r ∈ [wSolRoute], ∀ t,
            sampleInstance.trucks.find? (fun t2 => t2.id == r.truck_id) =
              some t →
            ∀ mr ∈ r.mini_routes, mr.load_quantity ≤ t.capacity))) := by
  refine C3_validate_solution sampleInstance [wSolRoute] ?_
  intro r hr
  rw [List.mem_singleton] at hr
  subst hr
  exact ⟨{ id := 1, capacity := 50, garage_id := 1 }, rfl⟩

/-! ## C1 / C9 / C10: the decomposition engine

Delivery accounting: `qtyTo entries sid` is the total quantity an entry
list delivers to station `sid`; `routeQty`/`roundQty` aggregate it over a
route's mini-routes and over a round's routes. -/

def qtyTo (entries : List (ℕ × ℚ)) (sid : ℕ) : ℚ :=
  (entries.map (fun e => if e.1 = sid then e.2 else 0)).sum

def routeQty (r : CompleteRoute) (sid : ℕ) : ℚ :=
  (r.mini_routes.map (fun mr => qtyTo mr.stations sid)).sum

def roundQty (routes : List CompleteRoute) (sid : ℕ) : ℚ :=
  (routes.map (fun r => routeQty r sid)).sum

theorem qtyTo_nonneg {entries : List (ℕ × ℚ)}
    (h : ∀ e ∈ entries, 0 ≤ e.2) (sid : ℕ) : 0 ≤ qtyTo entries sid := by
  refine List.sum_nonneg ?_
  intro x hx
  obtain ⟨e, he, rfl⟩ := List.mem_map.mp hx
  by_cases hc : e.1 = sid
  · rw [if_pos hc]
    exact h e he
  · rw [if_neg hc]

theorem qtyTo_eq_zero {entries : List (ℕ × ℚ)} {sid : ℕ}
    (h : ∀ e ∈ entries, e.1 ≠ sid) : qtyTo entries sid = 0 := by
  refine List.sum_eq_zero ?_
  intro x hx
  obtain ⟨e, he, rfl⟩ := List.mem_map.mp hx
  rw [if_neg (h e he)]

theorem erase_id_facts {l : List Station} {a : Station} (h : a ∈ l)
    (hno : (l.map Station.id).Nodup) :
    a.id ∉ ((l.erase a).map Station.id) ∧
      ((l.erase a).map Station.id).Nodup := by
  have hp : List.Perm (l.map Station.id)
      (a.id :: (l.erase a).map Station.id) := by
    simpa using (List.perm_cons_erase h).map Station.id
  have h2 : (a.id :: (l.erase a).map Station.id).Nodup := hp.nodup_iff.mp hno
  exact ⟨(List.nodup_cons.mp h2).1, (List.nodup_cons.mp h2).2⟩

/-- Delivery to a station absent from the input list is zero. -/
theorem serveLoop_qtyTo_zero (dist : Station → ℚ) (dem : ℕ → ℚ)
    (rc : ℚ) (unvisited : List Station) (sid : ℕ)
    (h : sid ∉ unvisited.map Station.id) :
    qtyTo (serveLoop dist dem rc unvisited) sid = 0 := by
  refine qtyTo_eq_zero ?_
  intro e he heq
  have := (serveLoop_entries dist dem rc unvisited e he).2.2
  rw [heq] at this
  exact h this

/-- With distinct station ids, one serve loop delivers at most the
station's remaining demand. -/
theorem serveLoop_qtyTo_le (dist : Station → ℚ) (dem : ℕ → ℚ)
    (rc : ℚ) (unvisited : List Station) :
    ∀ (sid : ℕ), (unvisited.map Station.id).Nodup → 0 ≤ dem sid →
    qtyTo (serveLoop dist dem rc unvisited) sid ≤ dem sid := by
  induction rc, unvisited using serveLoop.induct dist dem with
  | case1 rc =>
    intro sid _ hd
    rw [serveLoop]
    simpa [qtyTo] using hd
  | case2 rc s rest h1 h2 ih =>
    intro sid hno hd
    have hmem : pyMin dist s rest ∈ s :: rest := pyMin_mem dist s rest
    obtain ⟨hnm, hnd⟩ := erase_id_facts hmem hno
    rw [serveLoop, if_pos h1, if_pos h2]
    rw [qtyTo, List.map_cons, List.sum_cons]
    by_cases hc : (pyMin dist s rest).id = sid
    · rw [if_pos hc]
      have hz : qtyTo (serveLoop dist dem
          (rc - min rc (dem (pyMin dist s rest).id))
          ((s :: rest).erase (pyMin dist s rest))) sid = 0 := by
        refine serveLoop_qtyTo_zero _ _ _ _ _ ?_
        rw [← hc]
        exact hnm
      rw [qtyTo] at hz
      rw [hz]
      have h3 : min rc (dem (pyMin dist s rest).id) + 0 ≤ dem sid := by
        rw [hc]
        have := min_le_right rc (dem sid)
        linarith
      exact h3
    · rw [if_neg hc]
      have := ih sid hnd hd
      rw [qtyTo] at this
      linarith
  | case3 rc s rest h1 h2 ih =>
    intro sid hno hd
    have hmem : pyMin dist s rest ∈ s :: rest := pyMin_mem dist s rest
    obtain ⟨hnm, hnd⟩ := erase_id_facts hmem hno
    rw [serveLoop, if_pos h1, if_neg h2]
    exact ih sid hnd hd
  | case4 rc s rest h1 =>
    intro sid _ hd
    rw [serveLoop, if_neg h1]
    simpa [qtyTo] using hd

/-- Field extraction from a successfully built mini-route. -/
theorem _build_mini_route_fields (dist : DistFn) (truck : Truck)
    (depot : Depot) (product : ℕ) (stations : List Station)
    (remaining : ℕ × ℕ → ℚ) (mr : MiniRoute)
    (h : _build_mini_route dist truck depot product stations remaining =
      some mr) :
    mr.product_id = product ∧ mr.depot_id = depot.id ∧
      mr.stations = serveLoop (fun s => dist .depot depot.id .station s.id)
        (fun sid => remaining (sid, product)) mr.load_quantity stations := by
  unfold _build_mini_route at h
  set L := min truck.capacity
    (min ((stations.map (fun s => remaining (s.id, product))).sum)
      (dget depot.stock product)) with hLdef
  by_cases hpos : 0 < L
  · rw [if_pos hpos] at h
    by_cases hnil : serveLoop (fun s => dist .depot depot.id .station s.id)
        (fun sid => remaining (sid, product)) L stations = []
    · rw [if_pos hnil] at h
      exact Option.noConfusion h
    · rw [if_neg hnil] at h
      have hmr := (Option.some.injEq _ _).mp h
      subst hmr
      exact ⟨rfl, rfl, rfl⟩
  · rw [if_neg hpos] at h
    exact Option.noConfusion h

/-- Per-station delivery bounds of one built mini-route. -/
theorem mini_route_qtyTo (dist : DistFn) (truck : Truck) (depot : Depot)
    (product : ℕ) (stations : List Station) (remaining : ℕ × ℕ → ℚ)
    (mr : MiniRoute) (sid : ℕ)
    (hno : (stations.map Station.id).Nodup)
    (hd : 0 ≤ remaining (sid, product))
    (h : _build_mini_route dist truck depot product stations remaining =
      some mr) :
    qtyTo mr.stations sid ≤ remaining (sid, product) ∧
      0 ≤ qtyTo mr.stations sid ∧
      (sid ∉ stations.map Station.id → qtyTo mr.stations sid = 0) := by
  obtain ⟨-, -, hst⟩ :=
    _build_mini_route_fields dist truck depot product stations remaining mr h
  rw [hst]
  refine ⟨serveLoop_qtyTo_le _ _ _ _ sid hno hd, ?_, ?_⟩
  · refine qtyTo_nonneg ?_ sid
    intro e he
    exact le_of_lt (serveLoop_entries _ _ _ _ e he).1
  · intro hmem
    exact serveLoop_qtyTo_zero _ _ _ _ sid hmem

/-- Changeover cost of a single-mini-route trip: exactly one table lookup
from the truck's declared initial product (zero when the products agree,
matching `get_changeover_cost`). -/
theorem changeover_single (inst : MPVRPCCInstance) (t : Truck)
    (mini : MiniRoute) (r : CompleteRoute) (h : r.mini_routes = [mini]) :
    _calculate_changeover_cost inst r t =
      get_changeover_cost inst t.initial_product mini.product_id := by
  unfold _calculate_changeover_cost
  rw [h, List.foldl_cons, List.foldl_nil]
  by_cases he : t.initial_product = mini.product_id
  · rw [if_neg (by simpa using he)]
    show (0 : ℚ) = _
    rw [get_changeover_cost, if_pos he]
  · rw [if_pos (by simpa using he)]
    show 0 + get_changeover_cost inst t.initial_product mini.product_id = _
    rw [zero_add]

/-- Every route kept by `buildRoutes` wraps exactly one mini-route, built
for this round's product by `_build_mini_route` from its (truck, visit
list) pair, and its changeover cost is the single lookup from the truck's
initial product. -/
theorem buildRoutes_shape (inst : MPVRPCCInstance) (dist : DistFn)
    (depot : Depot) (product : ℕ) (rem : ℕ × ℕ → ℚ)
    (pairs : List (Truck × List Station)) :
    ∀ route ∈ buildRoutes inst dist depot product rem pairs,
      ∃ t sl mini, (t, sl) ∈ pairs ∧
        route.mini_routes = [mini] ∧ mini.product_id = product ∧
        route.truck_id = t.id ∧ route.garage_id = t.garage_id ∧
        route.total_changeover_cost =
          get_changeover_cost inst t.initial_product product ∧
        _build_mini_route dist t depot product sl rem = some mini := by
  induction pairs with
  | nil =>
    intro route hroute
    exact absurd hroute (by simp [buildRoutes])
  | cons ts rest ih =>
    intro route hroute
    rw [buildRoutes, List.filterMap_cons] at hroute
    by_cases hnil : ts.2 = []
    · rw [if_pos hnil] at hroute
      obtain ⟨t, sl, mini, hmem, hrest⟩ := ih route hroute
      exact ⟨t, sl, mini, List.mem_cons_of_mem _ hmem, hrest⟩
    · rw [if_neg hnil] at hroute
      revert hroute
      set built := _build_complete_route inst dist ts.1 depot product ts.2
        rem with hbuilt
      by_cases hmini : built.mini_routes = []
      · rw [if_pos hmini]
        intro hroute
        obtain ⟨t, sl, mini, hmem, hrest⟩ := ih route hroute
        exact ⟨t, sl, mini, List.mem_cons_of_mem _ hmem, hrest⟩
      · rw [if_neg hmini]
        intro hroute
        rcases List.mem_cons.mp hroute with rfl | hroute
        · revert hmini hbuilt
          unfold _build_complete_route
          cases hb : _build_mini_route dist ts.1 depot product ts.2 rem with
          | none =>
            intro hbuilt hmini
            exact absurd (by rw [hbuilt]) hmini
          | some mini =>
            intro hbuilt hmini
            refine ⟨ts.1, ts.2, mini, List.mem_cons_self _ _, by rw [hbuilt],
              (_build_mini_route_fields dist ts.1 depot product ts.2 rem
                mini hb).1, by rw [hbuilt], by rw [hbuilt], ?_, hb⟩
            rw [hbuilt]
            show _calculate_changeover_cost inst _ ts.1 = _
            rw [changeover_single inst ts.1 mini _ rfl,
              (_build_mini_route_fields dist ts.1 depot product ts.2 rem
                mini hb).1]
        · obtain ⟨t, sl, mini, hmem, hrest⟩ := ih route hroute
          exact ⟨t, sl, mini, List.mem_cons_of_mem _ hmem, hrest⟩

/-- The greedy fallback is `buildRoutes` over the per-truck lists of the
loop. -/
theorem greedy_eq_buildRoutes (inst : MPVRPCCInstance) (dist : DistFn)
    (product : ℕ) (stations : List Station) (trucks : List Truck)
    (depot : Depot) (rem : ℕ × ℕ → ℚ) :
    _assign_stations_greedy inst dist product stations trucks depot rem =
      buildRoutes inst dist depot product rem
        (trucks.map (fun t => (t,
          (greedyLoop dist product stations trucks depot rem
            ((stations.map Station.id).dedup) (fun _ => []) (fun _ => 0)).1
            t.id))) := rfl

/-- Every route of a round wraps one mini-route for the round's product,
built from a pair whose truck is among the available trucks. -/
theorem solve_vrp_shape (inst : MPVRPCCInstance) (dist : DistFn)
    (oracle : Oracle) (product : ℕ) (stations : List Station)
    (depots : List Depot) (rem : ℕ × ℕ → ℚ) (used : List ℕ) :
    ∀ route ∈ _solve_vrp_for_product inst dist oracle product stations
        depots rem used,
      ∃ t, t ∈ availableTrucks inst used ∧
        ∃ mini, route.mini_routes = [mini] ∧ mini.product_id = product ∧
          route.truck_id = t.id ∧ route.garage_id = t.garage_id ∧
          route.total_changeover_cost =
            get_changeover_cost inst t.initial_product product := by
  intro route hroute
  unfold _solve_vrp_for_product at hroute
  by_cases hav : availableTrucks inst used = []
  · rw [if_pos hav] at hroute
    exact absurd hroute (by simp)
  · rw [if_neg hav] at hroute
    split at hroute
    · exact absurd hroute (by simp)
    next depot drest =>
      split at hroute
      · rw [greedy_eq_buildRoutes] at hroute
        obtain ⟨t, sl, mini, hmem, hone, hprod, htid, hgar, hco, _⟩ :=
          buildRoutes_shape inst dist depot product rem _ route hroute
        obtain ⟨t2, ht2, heq⟩ := List.mem_map.mp hmem
        have : t2 = t := congrArg Prod.fst heq
        subst this
        exact ⟨t2, ht2, mini, hone, hprod, htid, hgar, hco⟩
      · obtain ⟨t, sl, mini, hmem, hone, hprod, htid, hgar, hco, _⟩ :=
          buildRoutes_shape inst dist depot product rem _ route hroute
        exact ⟨t, (List.of_mem_zip hmem).1, mini, hone, hprod, htid,
          hgar, hco⟩

theorem availableTrucks_subset (inst : MPVRPCCInstance) (used : List ℕ)
    {t : Truck} (h : t ∈ availableTrucks inst used) : t ∈ inst.trucks :=
  List.mem_of_mem_filter h

/-- The per-route shape property carried through the product loop. -/
theorem runRounds_shape (inst : MPVRPCCInstance) (dist : DistFn)
    (oracle : Oracle) (products : List ℕ) :
    ∀ route ∈ (runRounds inst dist oracle products).1,
      ∃ t ∈ inst.trucks, ∃ mini, route.mini_routes = [mini] ∧
        route.truck_id = t.id ∧ route.garage_id = t.garage_id ∧
        route.total_changeover_cost =
          get_changeover_cost inst t.initial_product mini.product_id := by
  suffices h : ∀ (l : List ℕ)
      (acc : List CompleteRoute × List ℕ × (ℕ × ℕ → ℚ)),
      (∀ route ∈ acc.1,
        ∃ t ∈ inst.trucks, ∃ mini, route.mini_routes = [mini] ∧
          route.truck_id = t.id ∧ route.garage_id = t.garage_id ∧
          route.total_changeover_cost =
            get_changeover_cost inst t.initial_product mini.product_id) →
      ∀ route ∈ (l.foldl (roundStep inst dist oracle) acc).1,
        ∃ t ∈ inst.trucks, ∃ mini, route.mini_routes = [mini] ∧
          route.truck_id = t.id ∧ route.garage_id = t.garage_id ∧
          route.total_changeover_cost =
            get_changeover_cost inst t.initial_product mini.product_id by
    exact h products ([], [], _init_remaining_demand inst) (by simp)
  intro l
  induction l with
  | nil => intro acc hacc; exact hacc
  | cons p ps ih =>
    intro acc hacc
    rw [List.foldl_cons]
    refine ih _ ?_
    intro route hroute
    unfold roundStep at hroute
    by_cases h1 : stations_needing inst p acc.2.2 = []
    · rw [if_pos h1] at hroute
      exact hacc route hroute
    · rw [if_neg h1] at hroute
      by_cases h2 : depots_supplying inst p = []
      · rw [if_pos h2] at hroute
        exact hacc route hroute
      · rw [if_neg h2] at hroute
        rcases List.mem_append.mp hroute with hroute | hroute
        · exact hacc route hroute
        · obtain ⟨t, ht, mini, hone, hprod, htid, hgar, hco⟩ :=
            solve_vrp_shape inst dist oracle p _ _ _ _ route hroute
          exact ⟨t, availableTrucks_subset inst _ ht, mini, hone, htid,
            hgar, by rw [hco, hprod]⟩

/-- **C10** (Per-route changeover baseline).  Every CompleteRoute appended
to the solution contains exactly one MiniRoute, and its
`total_changeover_cost` equals
`get_changeover_cost(truck.initial_product, miniRoute.product_id)` — in
particular it is non-zero exactly when the round's product differs from the
truck's declared initial product and the table entry is non-zero, and the
baseline resets to `initial_product` for every route, including later
rounds of a reused truck (every round's routes are costed this way,
whatever the prior rounds did). -/
theorem C10_changeover_baseline (inst : MPVRPCCInstance) (dist : DistFn)
    (oracle : Oracle) :
    ∀ route ∈ solve inst dist oracle,
      ∃ t ∈ inst.trucks, ∃ mini, route.mini_routes = [mini] ∧
        route.truck_id = t.id ∧ route.garage_id = t.garage_id ∧
        route.total_changeover_cost =
          get_changeover_cost inst t.initial_product mini.product_id :=
  runRounds_shape inst dist oracle _

/-- **C9** (Truck reuse across rounds).  The `used_trucks` set stays empty
through every sequence of rounds, and with an empty `used_trucks` the
available-truck selection of `_solve_vrp_for_product` yields all trucks of
the instance — so every round (greedy fallback included) is handed the full
fleet, each truck's capacity re-read from `truck.capacity` independently
per round. -/
theorem C9_truck_reuse (inst : MPVRPCCInstance) (dist : DistFn)
    (oracle : Oracle) :
    (∀ products : List ℕ,
      (runRounds inst dist oracle products).2.1 = ([] : List ℕ))
    ∧ availableTrucks inst [] = inst.trucks := by
  constructor
  · suffices h : ∀ (l : List ℕ)
        (acc : List CompleteRoute × List ℕ × (ℕ × ℕ → ℚ)),
        (l.foldl (roundStep inst dist oracle) acc).2.1 = acc.2.1 by
      intro products
      exact h products ([], [], _init_remaining_demand inst)
    intro l
    induction l with
    | nil => intro acc; rfl
    | cons p ps ih =>
      intro acc
      rw [List.foldl_cons, ih]
      unfold roundStep
      by_cases h1 : stations_needing inst p acc.2.2 = []
      · rw [if_pos h1]
      · rw [if_neg h1]
        by_cases h2 : depots_supplying inst p = []
        · rw [if_pos h2]
        · rw [if_neg h2]
  · unfold availableTrucks
    refine List.filter_eq_self.mpr ?_
    intro t _
    simp

/-! ### The demand decrement in terms of delivered quantities -/

theorem entries_fold_at (product : ℕ) (entries : List (ℕ × ℚ)) :
    ∀ (r : ℕ × ℕ → ℚ) (key : ℕ × ℕ),
      (entries.foldl (fun r3 sq =>
        updateFn r3 (sq.1, product) (r3 (sq.1, product) - sq.2)) r) key =
        r key - (if key.2 = product then qtyTo entries key.1 else 0) := by
  induction entries with
  | nil =>
    intro r key
    simp [qtyTo]
  | cons e rest ih =>
    intro r key
    rw [List.foldl_cons, ih]
    unfold updateFn qtyTo
    simp only [List.map_cons, List.sum_cons]
    by_cases h2 : key.2 = product
    · by_cases h1 : e.1 = key.1
      · have hk : key = (e.1, product) := Prod.ext h1.symm h2
        rw [if_pos hk, if_pos h2, if_pos h2, if_pos h1, hk]
        ring
      · have hk : key ≠ (e.1, product) := by
          intro he
          exact h1 (congrArg Prod.fst he).symm
        rw [if_neg hk, if_pos h2, if_pos h2, if_neg h1]
        ring
    · have hk : key ≠ (e.1, product) := by
        intro he
        exact h2 (congrArg Prod.snd he)
      rw [if_neg hk, if_neg h2, if_neg h2]

theorem minis_fold_at (product : ℕ) (minis : List MiniRoute) :
    ∀ (r : ℕ × ℕ → ℚ) (key : ℕ × ℕ),
      (minis.foldl (fun r2 mr => mr.stations.foldl (fun r3 sq =>
        updateFn r3 (sq.1, product) (r3 (sq.1, product) - sq.2)) r2) r)
          key =
        r key - (if key.2 = product
          then (minis.map (fun mr => qtyTo mr.stations key.1)).sum
          else 0) := by
  induction minis with
  | nil =>
    intro r key
    simp
  | cons mr rest ih =>
    intro r key
    rw [List.foldl_cons, ih, entries_fold_at]
    simp only [List.map_cons, List.sum_cons]
    by_cases h2 : key.2 = product
    · rw [if_pos h2, if_pos h2, if_pos h2]
      ring
    · rw [if_neg h2, if_neg h2, if_neg h2]
      ring

/-- The round's demand update subtracts exactly the per-station delivered
quantity of the round's routes at this product's keys. -/
theorem decrementDemand_eq (product : ℕ) (routes : List CompleteRoute) :
    ∀ (rem : ℕ × ℕ → ℚ) (key : ℕ × ℕ),
      decrementDemand product routes rem key =
        rem key - (if key.2 = product then roundQty routes key.1 else 0) := by
  induction routes with
  | nil =>
    intro rem key
    simp [decrementDemand, roundQty]
  | cons route rest ih =>
    intro rem key
    have hstep : decrementDemand product (route :: rest) rem =
        decrementDemand product rest
          (route.mini_routes.foldl (fun r2 mr =>
            mr.stations.foldl (fun r3 sq =>
              updateFn r3 (sq.1, product) (r3 (sq.1, product) - sq.2)) r2)
            rem) := rfl
    rw [hstep, ih, minis_fold_at]
    unfold roundQty routeQty
    simp only [List.map_cons, List.sum_cons]
    by_cases h2 : key.2 = product
    · rw [if_pos h2, if_pos h2, if_pos h2]
      ring
    · rw [if_neg h2, if_neg h2, if_neg h2]
      ring

theorem roundQty_append (a b : List CompleteRoute) (sid : ℕ) :
    roundQty (a ++ b) sid = roundQty a sid + roundQty b sid := by
  simp [roundQty]

theorem buildRoutes_cons (inst : MPVRPCCInstance) (dist : DistFn)
    (depot : Depot) (product : ℕ) (rem : ℕ × ℕ → ℚ)
    (ts : Truck × List Station) (rest : List (Truck × List Station)) :
    buildRoutes inst dist depot product rem (ts :: rest) =
      (if ts.2 = [] then []
       else if (_build_complete_route inst dist ts.1 depot product ts.2
           rem).mini_routes = []
         then []
         else [_build_complete_route inst dist ts.1 depot product ts.2 rem])
      ++ buildRoutes inst dist depot product rem rest := by
  show List.filterMap _ (ts :: rest) = _
  rw [List.filterMap_cons]
  by_cases hnil : ts.2 = []
  · rw [if_pos hnil, if_pos hnil, List.nil_append]
    rfl
  · rw [if_neg hnil, if_neg hnil]
    by_cases hmini : (_build_complete_route inst dist ts.1 depot product
        ts.2 rem).mini_routes = []
    · rw [if_pos hmini, if_pos hmini, List.nil_append]
      rfl
    · rw [if_neg hmini, if_neg hmini, List.singleton_append]
      rfl

/-- A pair set touching no entry for `sid` delivers nothing to `sid`. -/
theorem buildRoutes_qty_zero (inst : MPVRPCCInstance) (dist : DistFn)
    (depot : Depot) (product : ℕ) (rem : ℕ × ℕ → ℚ)
    (pairs : List (Truck × List Station)) (sid : ℕ)
    (h : ∀ ts ∈ pairs, sid ∉ ts.2.map Station.id) :
    roundQty (buildRoutes inst dist depot product rem pairs) sid = 0 := by
  unfold roundQty
  refine List.sum_eq_zero ?_
  intro x hx
  obtain ⟨route, hroute, rfl⟩ := List.mem_map.mp hx
  obtain ⟨t, sl, mini, hmem, hone, _, _, _, _, hb⟩ :=
    buildRoutes_shape inst dist depot product rem pairs route hroute
  rw [routeQty, hone, List.map_cons, List.map_nil, List.sum_cons,
    List.sum_nil]
  obtain ⟨-, -, hst⟩ :=
    _build_mini_route_fields dist t depot product sl rem mini hb
  rw [hst, serveLoop_qtyTo_zero _ _ _ _ sid (h (t, sl) hmem), add_zero]

theorem _build_complete_route_minis (inst : MPVRPCCInstance)
    (dist : DistFn) (truck : Truck) (depot : Depot) (product : ℕ)
    (stations : List Station) (rem : ℕ × ℕ → ℚ) :
    ((_build_complete_route inst dist truck depot product stations
        rem).mini_routes = []
      ∧ _build_mini_route dist truck depot product stations rem = none)
    ∨ ∃ mini, _build_mini_route dist truck depot product stations rem =
        some mini ∧
      (_build_complete_route inst dist truck depot product stations
        rem).mini_routes = [mini] := by
  unfold _build_complete_route
  cases hb : _build_mini_route dist truck depot product stations rem with
  | none => exact Or.inl ⟨rfl, rfl⟩
  | some mini => exact Or.inr ⟨mini, rfl, rfl⟩

/-- The delivered quantity of a round's built routes to any station is
non-negative and bounded by that station's remaining demand, provided the
pairs' visit lists have globally distinct station ids. -/
theorem buildRoutes_roundQty (inst : MPVRPCCInstance) (dist : DistFn)
    (depot : Depot) (product : ℕ) (rem : ℕ × ℕ → ℚ) :
    ∀ (pairs : List (Truck × List Station)) (sid : ℕ),
      ((pairs.map (fun ts => ts.2.map Station.id)).flatten).Nodup →
      0 ≤ rem (sid, product) →
      0 ≤ roundQty (buildRoutes inst dist depot product rem pairs) sid ∧
        roundQty (buildRoutes inst dist depot product rem pairs) sid ≤
          rem (sid, product) := by
  intro pairs
  induction pairs with
  | nil =>
    intro sid _ hd
    constructor
    · simp [roundQty, buildRoutes]
    · simpa [roundQty, buildRoutes] using hd
  | cons ts rest ih =>
    intro sid hno hd
    rw [List.map_cons, List.flatten_cons] at hno
    rw [List.nodup_append] at hno
    obtain ⟨hno1, hno2, hdisj⟩ := hno
    rw [buildRoutes_cons, roundQty_append]
    by_cases hnil : ts.2 = []
    · rw [if_pos hnil, roundQty]
      simp only [List.map_nil, List.sum_nil, zero_add]
      exact ih sid hno2 hd
    · rw [if_neg hnil]
      by_cases hmini : (_build_complete_route inst dist ts.1 depot product
          ts.2 rem).mini_routes = []
      · rw [if_pos hmini, roundQty]
        simp only [List.map_nil, List.sum_nil, zero_add]
        exact ih sid hno2 hd
      · rw [if_neg hmini]
        rcases _build_complete_route_minis inst dist ts.1 depot product
            ts.2 rem with ⟨hempty, _⟩ | ⟨mini, hb, hminis⟩
        · exact absurd hempty hmini
        · have hq : roundQty [_build_complete_route inst dist ts.1 depot
              product ts.2 rem] sid = qtyTo mini.stations sid := by
            rw [roundQty, List.map_cons, List.map_nil, List.sum_cons,
              List.sum_nil, routeQty, hminis, List.map_cons, List.map_nil,
              List.sum_cons, List.sum_nil, add_zero, add_zero]
          rw [hq]
          by_cases hsid : sid ∈ ts.2.map Station.id
          · have hzrest : roundQty
                (buildRoutes inst dist depot product rem rest) sid = 0 := by
              refine buildRoutes_qty_zero inst dist depot product rem rest
                sid ?_
              intro ts2 hts2 hmem2
              refine hdisj hsid ?_
              rw [List.mem_flatten]
              exact ⟨ts2.2.map Station.id,
                List.mem_map_of_mem _ hts2, hmem2⟩
            obtain ⟨hle, hnn, _⟩ := mini_route_qtyTo dist ts.1 depot
              product ts.2 rem mini sid hno1 hd hb
            rw [hzrest]
            constructor
            · linarith
            · linarith
          · have hz : qtyTo mini.stations sid = 0 :=
              (mini_route_qtyTo dist ts.1 depot product ts.2 rem mini sid
                hno1 hd hb).2.2 hsid
            obtain ⟨h1, h2⟩ := ih sid hno2 hd
            rw [hz]
            constructor
            · linarith
            · linarith

theorem zip_snd_sublist {α β : Type} :
    ∀ (l1 : List α) (l2 : List β),
      ((l1.zip l2).map Prod.snd).Sublist l2 := by
  intro l1
  induction l1 with
  | nil =>
    intro l2
    simp
  | cons a l1x ih =>
    intro l2
    cases l2 with
    | nil => simp
    | cons b l2x =>
      rw [List.zip_cons_cons, List.map_cons]
      exact (ih l2x).cons₂ b

theorem sublist_flatten_mono {α : Type} :
    ∀ {L1 L2 : List (List α)}, L1.Sublist L2 →
      L1.flatten.Sublist L2.flatten := by
  intro L1 L2 h
  induction h with
  | slnil => exact List.Sublist.refl _
  | cons l hsub ih =>
    rw [List.flatten_cons]
    exact ih.trans (List.sublist_append_right _ _)
  | cons₂ l hsub ih =>
    rw [List.flatten_cons, List.flatten_cons]
    exact ih.append_left l

/-- The oracle contract needed for demand conservation: the per-vehicle
visit lists of a successful answer contain globally distinct station ids
(each selected station is visited at most once across all vehicles) —
exactly the routing model's property that every node is visited once. -/
def OracleOk (oracle : Oracle) : Prop :=
  ∀ product stations depot trucks rem assign,
    oracle product stations depot trucks rem = some assign →
    ((assign.map (fun sl => sl.map Station.id)).flatten).Nodup

/-- The running invariant of the greedy loop: the unvisited set has no
duplicates, per-truck visit lists have distinct ids, listed ids are no
longer unvisited, and different truck keys hold disjoint id sets. -/
def GreedyInv (unvisited : List ℕ) (routes : ℕ → List Station) : Prop :=
  unvisited.Nodup ∧
  (∀ tid, ((routes tid).map Station.id).Nodup) ∧
  (∀ tid sid, sid ∈ (routes tid).map Station.id → sid ∉ unvisited) ∧
  (∀ tid tid2, tid ≠ tid2 → ∀ sid ∈ (routes tid).map Station.id,
    sid ∉ (routes tid2).map Station.id)

theorem greedyLoop_inv (dist : DistFn) (product : ℕ)
    (stations : List Station) (trucks : List Truck) (depot : Depot)
    (rem : ℕ × ℕ → ℚ) :
    ∀ (unvisited : List ℕ) (routes : ℕ → List Station) (load : ℕ → ℚ),
      GreedyInv unvisited routes →
      (∀ tid, (((greedyLoop dist product stations trucks depot rem
          unvisited routes load).1 tid).map Station.id).Nodup) ∧
      (∀ tid tid2, tid ≠ tid2 →
        ∀ sid ∈ ((greedyLoop dist product stations trucks depot rem
            unvisited routes load).1 tid).map Station.id,
          sid ∉ ((greedyLoop dist product stations trucks depot rem
            unvisited routes load).1 tid2).map Station.id) := by
  intro unvisited routes load
  induction unvisited, routes, load using greedyLoop.induct dist product
    stations trucks depot rem with
  | case1 routes load =>
    intro hinv
    rw [greedyLoop]
    exact ⟨hinv.2.1, hinv.2.2.2⟩
  | case2 routes load u0 urest ts hb ih =>
    intro hinv
    obtain ⟨hnd, hrnodup, hnotun, hdisj⟩ := hinv
    have hfacts := greedyScan_best_facts dist product stations trucks depot
      rem load (u0 :: urest) ts.1 ts.2 (by rw [hb])
    have hsub := greedyScan_unvisited_sublist dist product stations trucks
      depot rem load (u0 :: urest)
    have hstnmem : ts.2.id ∈ u0 :: urest := hsub.mem hfacts.2
    have hscan_nd : (greedyScan dist product stations trucks depot rem load
        (u0 :: urest)).unvisited.Nodup := hsub.nodup hnd
    have hstep : greedyLoop dist product stations trucks depot rem
        (u0 :: urest) routes load =
        greedyLoop dist product stations trucks depot rem
          (((greedyScan dist product stations trucks depot rem load
              (u0 :: urest)).unvisited).erase ts.2.id)
          (fun k => if k = ts.1 then routes ts.1 ++ [ts.2] else routes k)
          (fun k => if k = ts.1 then load ts.1 + rem (ts.2.id, product)
                    else load k) := by
      rw [greedyLoop]
      split
      next ts2 heq =>
        rw [hb] at heq
        have h2 := Option.some.inj heq
        rw [← h2]
      next heq =>
        rw [hb] at heq
        exact Option.noConfusion heq
    rw [hstep]
    refine ih ⟨hscan_nd.erase _, ?_, ?_, ?_⟩
    · intro tid
      show (List.map Station.id
        (if tid = ts.1 then routes ts.1 ++ [ts.2] else routes tid)).Nodup
      by_cases htid : tid = ts.1
      · rw [if_pos htid, List.map_append, List.nodup_append]
        refine ⟨hrnodup ts.1, by simp, ?_⟩
        intro sid hsid
        have hsidnu := hnotun ts.1 sid hsid
        simp only [List.map_cons, List.map_nil, List.mem_singleton]
        intro heq2
        rw [heq2] at hsidnu
        exact hsidnu hstnmem
      · rw [if_neg htid]
        exact hrnodup tid
    · intro tid sid hsid0 hmem
      have hsid : sid ∈ List.map Station.id
          (if tid = ts.1 then routes ts.1 ++ [ts.2] else routes tid) :=
        hsid0
      have hmem2 : sid ∈ (greedyScan dist product stations trucks depot
          rem load (u0 :: urest)).unvisited :=
        (List.erase_sublist _ _).mem hmem
      have hmemun : sid ∈ u0 :: urest := hsub.mem hmem2
      by_cases htid : tid = ts.1
      · rw [if_pos htid, List.map_append] at hsid
        rcases List.mem_append.mp hsid with hsid | hsid
        · exact hnotun ts.1 sid hsid hmemun
        · simp only [List.map_cons, List.map_nil,
            List.mem_singleton] at hsid
          rw [hsid] at hmem
          exact ((List.Nodup.mem_erase_iff hscan_nd).mp hmem).1 rfl
      · rw [if_neg htid] at hsid
        exact hnotun tid sid hsid hmemun
    · intro tid tid2 hne sid hsid0 hsid20
      have hsid : sid ∈ List.map Station.id
          (if tid = ts.1 then routes ts.1 ++ [ts.2] else routes tid) :=
        hsid0
      have hsid2 : sid ∈ List.map Station.id
          (if tid2 = ts.1 then routes ts.1 ++ [ts.2] else routes tid2) :=
        hsid20
      by_cases htid : tid = ts.1
      · subst htid
        rw [if_pos rfl, List.map_append] at hsid
        rw [if_neg (fun h => hne h.symm)] at hsid2
        rcases List.mem_append.mp hsid with hold | hnew
        · exact hdisj ts.1 tid2 hne sid hold hsid2
        · simp only [List.map_cons, List.map_nil,
            List.mem_singleton] at hnew
          rw [hnew] at hsid2
          exact hnotun tid2 ts.2.id hsid2 hstnmem
      · rw [if_neg htid] at hsid
        by_cases htid2 : tid2 = ts.1
        · subst htid2
          rw [if_pos rfl, List.map_append] at hsid2
          rcases List.mem_append.mp hsid2 with hold | hnew
          · exact hdisj tid ts.1 htid sid hsid hold
          · simp only [List.map_cons, List.map_nil,
              List.mem_singleton] at hnew
            rw [hnew] at hsid
            exact hnotun tid ts.2.id hsid hstnmem
        · rw [if_neg htid2] at hsid2
          exact hdisj tid tid2 hne sid hsid hsid2
  | case3 routes load u0 urest hb =>
    intro hinv
    rw [greedyLoop]
    split
    next ts2 heq =>
      rw [hb] at heq
      exact Option.noConfusion heq
    next => exact ⟨hinv.2.1, hinv.2.2.2⟩

/-- Flattening lists indexed by distinct keys whose per-key lists are
duplicate-free and pairwise disjoint yields a duplicate-free list. -/
theorem flatten_nodup_of_disjoint (g : ℕ → List ℕ)
    (hg : ∀ i, (g i).Nodup)
    (hdisj : ∀ i j, i ≠ j → ∀ x ∈ g i, x ∉ g j) :
    ∀ (l : List ℕ), l.Nodup → ((l.map g).flatten).Nodup := by
  intro l
  induction l with
  | nil =>
    intro _
    simp
  | cons a rest ih =>
    intro hno
    rw [List.map_cons, List.flatten_cons, List.nodup_append]
    obtain ⟨ha, hrest⟩ := List.nodup_cons.mp hno
    refine ⟨hg a, ih hrest, ?_⟩
    intro x hx hxmem
    rw [List.mem_flatten] at hxmem
    obtain ⟨li, hli, hxli⟩ := hxmem
    obtain ⟨b, hb2, rfl⟩ := List.mem_map.mp hli
    have hab : a ≠ b := fun h => ha (h ▸ hb2)
    exact hdisj a b hab x hx hxli

theorem availableTrucks_ids_nodup (inst : MPVRPCCInstance) (used : List ℕ)
    (h : (inst.trucks.map Truck.id).Nodup) :
    ((availableTrucks inst used).map Truck.id).Nodup :=
  ((List.filter_sublist _).map Truck.id).nodup h

/-- The greedy fallback's (truck, visit list) pairs mention each station id
at most once across all trucks, given distinct truck ids. -/
theorem greedy_pairs_nodup (inst : MPVRPCCInstance) (dist : DistFn)
    (product : ℕ) (stations : List Station) (trucks : List Truck)
    (depot : Depot) (rem : ℕ × ℕ → ℚ)
    (htr : (trucks.map Truck.id).Nodup) :
    (((trucks.map (fun t => (t,
        (greedyLoop dist product stations trucks depot rem
          ((stations.map Station.id).dedup) (fun _ => []) (fun _ => 0)).1
          t.id))).map (fun ts => ts.2.map Station.id)).flatten).Nodup := by
  have hinv : GreedyInv ((stations.map Station.id).dedup)
      (fun _ => []) := by
    refine ⟨List.nodup_dedup _, ?_, ?_, ?_⟩ <;> simp
  obtain ⟨hnd, hdisj⟩ := greedyLoop_inv dist product stations trucks depot
    rem ((stations.map Station.id).dedup) (fun _ => []) (fun _ => 0) hinv
  set res := (greedyLoop dist product stations trucks depot rem
    ((stations.map Station.id).dedup) (fun _ => []) (fun _ => 0)).1
    with hres
  have h1 : (trucks.map (fun t => (t, res t.id))).map
      (fun ts => ts.2.map Station.id) =
      (trucks.map Truck.id).map (fun tid => (res tid).map Station.id) := by
    simp only [List.map_map]
    rfl
  rw [h1]
  exact flatten_nodup_of_disjoint (fun tid => (res tid).map Station.id)
    hnd (fun i j hij x hx => hdisj i j hij x hx) (trucks.map Truck.id) htr

/-- One-step unfolding of `_solve_vrp_for_product` (the lets expanded). -/
theorem solve_vrp_eq (inst : MPVRPCCInstance) (dist : DistFn)
    (oracle : Oracle) (product : ℕ) (stations : List Station)
    (depots : List Depot) (rem : ℕ × ℕ → ℚ) (used : List ℕ) :
    _solve_vrp_for_product inst dist oracle product stations depots rem
        used =
      if availableTrucks inst used = [] then []
      else
        match depots with
        | [] => []
        | depot :: _ =>
          match oracle product stations depot (availableTrucks inst used)
              rem with
          | none =>
            _assign_stations_greedy inst dist product stations
              (availableTrucks inst used) depot rem
          | some assign =>
            buildRoutes inst dist depot product rem
              ((availableTrucks inst used).zip assign) := rfl

/-- The visit lists handed to `buildRoutes` by a successful oracle answer
mention each station id at most once across all pairs. -/
theorem zip_assign_nodup (available : List Truck)
    (assign : List (List Station))
    (hnd : ((assign.map (fun sl => sl.map Station.id)).flatten).Nodup) :
    (((available.zip assign).map
      (fun ts => ts.2.map Station.id)).flatten).Nodup := by
  have hsub1 : ((available.zip assign).map Prod.snd).Sublist assign :=
    zip_snd_sublist _ _
  have hsub2 : (((available.zip assign).map Prod.snd).map
      (fun sl => sl.map Station.id)).Sublist
      (assign.map (fun sl => sl.map Station.id)) :=
    hsub1.map _
  have heq : ((available.zip assign).map
      (fun ts => ts.2.map Station.id)) =
      (((available.zip assign).map Prod.snd).map
        (fun sl => sl.map Station.id)) := by
    simp [List.map_map]
  rw [heq]
  exact (sublist_flatten_mono hsub2).nodup hnd

/-- Per-station delivery bounds of one full round of routes: the round
delivers a non-negative quantity ≤ the station's remaining demand. -/
theorem solve_vrp_roundQty (inst : MPVRPCCInstance) (dist : DistFn)
    (oracle : Oracle) (product : ℕ) (stations : List Station)
    (depots : List Depot) (rem : ℕ × ℕ → ℚ) (used : List ℕ) (sid : ℕ)
    (horacle : OracleOk oracle)
    (htr : (inst.trucks.map Truck.id).Nodup)
    (hd : 0 ≤ rem (sid, product)) :
    0 ≤ roundQty (_solve_vrp_for_product inst dist oracle product stations
        depots rem used) sid ∧
      roundQty (_solve_vrp_for_product inst dist oracle product stations
        depots rem used) sid ≤ rem (sid, product) := by
  rw [solve_vrp_eq]
  by_cases hav : availableTrucks inst used = []
  · rw [if_pos hav]
    exact ⟨by simp [roundQty], by simpa [roundQty] using hd⟩
  · rw [if_neg hav]
    split
    · exact ⟨by simp [roundQty], by simpa [roundQty] using hd⟩
    next depot drest =>
      split
      next horc =>
        rw [greedy_eq_buildRoutes]
        exact buildRoutes_roundQty inst dist depot product rem _ sid
          (greedy_pairs_nodup inst dist product stations _ depot rem
            (availableTrucks_ids_nodup inst used htr)) hd
      next assign horc =>
        exact buildRoutes_roundQty inst dist depot product rem _ sid
          (zip_assign_nodup _ assign
            (horacle product stations depot _ rem assign horc)) hd

/-! ### The initial remaining-demand dict -/

theorem fold_demand_nonneg (sid : ℕ) :
    ∀ (dem : List (ℕ × ℚ)) (r : ℕ × ℕ → ℚ),
      (∀ pq ∈ dem, 0 ≤ pq.2) → (∀ key, 0 ≤ r key) →
      ∀ key, 0 ≤ (dem.foldl
        (fun r2 pq => updateFn r2 (sid, pq.1) pq.2) r) key := by
  intro dem
  induction dem with
  | nil =>
    intro r _ hr key
    exact hr key
  | cons pq rest ih =>
    intro r hdem hr key
    simp only [List.foldl_cons]
    refine ih _ (fun e he => hdem e (List.mem_cons_of_mem _ he)) ?_ key
    intro key2
    unfold updateFn
    by_cases hk : key2 = (sid, pq.1)
    · rw [if_pos hk]
      exact hdem pq (List.mem_cons_self _ _)
    · rw [if_neg hk]
      exact hr key2

/-- The initial remaining-demand dict is non-negative when every declared
demand quantity is. -/
theorem init_nonneg (inst : MPVRPCCInstance)
    (hdem : ∀ s ∈ inst.stations, ∀ pq ∈ s.demand, 0 ≤ pq.2) :
    ∀ key, 0 ≤ _init_remaining_demand inst key := by
  unfold _init_remaining_demand
  suffices h : ∀ (l : List Station) (r0 : ℕ × ℕ → ℚ),
      (∀ s ∈ l, ∀ pq ∈ s.demand, 0 ≤ pq.2) → (∀ key, 0 ≤ r0 key) →
      ∀ key, 0 ≤ (l.foldl (fun r s => s.demand.foldl
        (fun r2 pq => updateFn r2 (s.id, pq.1) pq.2) r) r0) key by
    exact h inst.stations _ hdem (fun _ => le_refl 0)
  intro l
  induction l with
  | nil =>
    intro r0 _ hr key
    exact hr key
  | cons s rest ih =>
    intro r0 hl hr key
    simp only [List.foldl_cons]
    exact ih _ (fun s2 hs2 => hl s2 (List.mem_cons_of_mem _ hs2))
      (fold_demand_nonneg s.id s.demand _ (hl s (List.mem_cons_self _ _))
        hr) key

/-- A station's inner fold leaves keys of other stations or absent products
untouched. -/
theorem demand_fold_other (sid : ℕ) :
    ∀ (dem : List (ℕ × ℚ)) (r : ℕ × ℕ → ℚ) (key : ℕ × ℕ),
      (key.1 ≠ sid ∨ key.2 ∉ dem.map Prod.fst) →
      (dem.foldl (fun r2 pq => updateFn r2 (sid, pq.1) pq.2) r) key =
        r key := by
  intro dem
  induction dem with
  | nil =>
    intro r key _
    rfl
  | cons pq rest ih =>
    intro r key hk
    rcases hk with h1 | h2
    · simp only [List.foldl_cons]
      rw [ih _ _ (Or.inl h1)]
      unfold updateFn
      rw [if_neg]
      intro he
      exact h1 (congrArg Prod.fst he)
    · have h2r : key.2 ∉ rest.map Prod.fst :=
        fun hm => h2 (by rw [List.map_cons]; exact List.mem_cons_of_mem _ hm)
      simp only [List.foldl_cons]
      rw [ih _ _ (Or.inr h2r)]
      unfold updateFn
      rw [if_neg]
      intro he
      refine h2 ?_
      have hq : key.2 = pq.1 := congrArg Prod.snd he
      rw [List.map_cons, hq]
      exact List.mem_cons_self _ _

theorem dget_cons_self {pq : ℕ × ℚ} {rest : List (ℕ × ℚ)} {p : ℕ}
    (h : pq.1 = p) : dget (pq :: rest) p = pq.2 := by
  unfold dget
  rw [List.find?_cons_of_pos _ (by simpa using h)]
  rfl

theorem dget_cons_ne {pq : ℕ × ℚ} {rest : List (ℕ × ℚ)} {p : ℕ}
    (h : pq.1 ≠ p) : dget (pq :: rest) p = dget rest p := by
  unfold dget
  rw [List.find?_cons_of_neg _ (by simpa using h)]

/-- A station's inner fold ends with exactly the station's declared demand
at every present product key (first occurrence, as the keys are distinct). -/
theorem demand_fold_at (sid : ℕ) :
    ∀ (dem : List (ℕ × ℚ)) (r : ℕ × ℕ → ℚ) (p : ℕ),
      (dem.map Prod.fst).Nodup → p ∈ dem.map Prod.fst →
      (dem.foldl (fun r2 pq => updateFn r2 (sid, pq.1) pq.2) r) (sid, p) =
        dget dem p := by
  intro dem
  induction dem with
  | nil =>
    intro r p _ hp
    exact absurd hp (by simp)
  | cons pq rest ih =>
    intro r p hnd hp
    rw [List.map_cons] at hnd
    obtain ⟨hh, ht⟩ := List.nodup_cons.mp hnd
    simp only [List.foldl_cons]
    by_cases hph : p = pq.1
    · have hpn : p ∉ rest.map Prod.fst := by
        rw [hph]
        exact hh
      rw [demand_fold_other sid rest _ (sid, p) (Or.inr hpn)]
      unfold updateFn
      rw [if_pos (by rw [hph]), dget_cons_self hph.symm]
    · rw [List.map_cons] at hp
      have hp2 : p ∈ rest.map Prod.fst := by
        rcases List.mem_cons.mp hp with h | h
        · exact absurd h hph
        · exact h
      rw [ih _ p ht hp2, dget_cons_ne (fun h => hph h.symm)]

/-- The outer fold leaves keys of unlisted station ids untouched. -/
theorem stations_fold_other :
    ∀ (l : List Station) (r0 : ℕ × ℕ → ℚ) (key : ℕ × ℕ),
      key.1 ∉ l.map Station.id →
      (l.foldl (fun r s => s.demand.foldl
        (fun r2 pq => updateFn r2 (s.id, pq.1) pq.2) r) r0) key =
        r0 key := by
  intro l
  induction l with
  | nil =>
    intro r0 key _
    rfl
  | cons s rest ih =>
    intro r0 key hk
    rw [List.map_cons] at hk
    simp only [List.foldl_cons]
    rw [ih _ _ (fun hm => hk (List.mem_cons_of_mem _ hm)),
      demand_fold_other s.id s.demand r0 key
        (Or.inl (fun he => hk (by rw [he]; exact List.mem_cons_self _ _)))]

/-- With distinct station ids and distinct per-station demand keys, the
initial remaining-demand dict reads back each station's declared demand. -/
theorem init_eq_dget (inst : MPVRPCCInstance) {s : Station}
    (hs : s ∈ inst.stations)
    (hsids : (inst.stations.map Station.id).Nodup)
    (hkeys : (s.demand.map Prod.fst).Nodup) (p : ℕ) :
    _init_remaining_demand inst (s.id, p) = dget s.demand p := by
  obtain ⟨l1, l2, hdec⟩ := List.append_of_mem hs
  rw [hdec] at hsids
  rw [List.map_append, List.map_cons, List.nodup_append] at hsids
  obtain ⟨h1, h2, hdisj⟩ := hsids
  have hnotl2 : s.id ∉ l2.map Station.id := (List.nodup_cons.mp h2).1
  have hnotl1 : s.id ∉ l1.map Station.id :=
    fun hm => hdisj hm (List.mem_cons_self _ _)
  unfold _init_remaining_demand
  rw [hdec, List.foldl_append]
  simp only [List.foldl_cons]
  rw [stations_fold_other l2 _ (s.id, p) hnotl2]
  by_cases hp : p ∈ s.demand.map Prod.fst
  · exact demand_fold_at s.id s.demand _ p hkeys hp
  · rw [demand_fold_other s.id s.demand _ (s.id, p) (Or.inr hp),
      stations_fold_other l1 _ (s.id, p) hnotl1,
      dget_eq_zero_of_not_mem hp]

/-! ### Delivered quantities across the run -/

theorem delivered_nil (sid p : ℕ) : delivered [] sid p = 0 := rfl

theorem delivered_cons (r : CompleteRoute) (rest : List CompleteRoute)
    (sid p : ℕ) :
    delivered (r :: rest) sid p =
      (r.mini_routes.map (fun mr => if mr.product_id = p
        then qtyTo mr.stations sid else 0)).sum + delivered rest sid p := by
  unfold delivered qtyTo
  rw [List.map_cons, List.sum_cons]

theorem delivered_append (a b : List CompleteRoute) (sid p : ℕ) :
    delivered (a ++ b) sid p = delivered a sid p + delivered b sid p := by
  unfold delivered
  rw [List.map_append, List.sum_append]

/-- A round whose routes all carry one mini-route of the round's product
delivers its `roundQty` at that product and nothing at any other. -/
theorem delivered_pure (p : ℕ) :
    ∀ (routes : List CompleteRoute),
      (∀ r ∈ routes, ∃ mini, r.mini_routes = [mini] ∧
        mini.product_id = p) →
      ∀ sid q, delivered routes sid q =
        if q = p then roundQty routes sid else 0 := by
  intro routes
  induction routes with
  | nil =>
    intro _ sid q
    rw [delivered_nil, roundQty]
    simp
  | cons r rest ih =>
    intro h sid q
    obtain ⟨mini, hone, hprod⟩ := h r (List.mem_cons_self _ _)
    rw [delivered_cons, ih (fun r2 h2 => h r2 (List.mem_cons_of_mem _ h2)),
      hone]
    simp only [roundQty, routeQty, List.map_cons, List.map_nil,
      List.sum_cons, List.sum_nil, add_zero, hone]
    by_cases hq : q = p
    · rw [if_pos hq, if_pos (by rw [hprod, hq]), if_pos hq]
    · rw [if_neg hq, if_neg (by rw [hprod]; exact fun hc => hq hc.symm),
        if_neg hq]
      norm_num

/-! ### The demand-conservation invariant through the product loop -/

/-- The running invariant of the product loop: remaining demand is
pointwise non-negative and equals the initial demand minus everything
delivered so far. -/
def C1Inv (inst : MPVRPCCInstance)
    (acc : List CompleteRoute × List ℕ × (ℕ × ℕ → ℚ)) : Prop :=
  (∀ key, 0 ≤ acc.2.2 key) ∧
  (∀ key : ℕ × ℕ, acc.2.2 key =
    _init_remaining_demand inst key - delivered acc.1 key.1 key.2)

theorem C1Inv_step (inst : MPVRPCCInstance) (sol : List CompleteRoute)
    (used : List ℕ) (rem : ℕ × ℕ → ℚ) (product : ℕ)
    (pr : List CompleteRoute)
    (hpure : ∀ r ∈ pr, ∃ mini, r.mini_routes = [mini] ∧
      mini.product_id = product)
    (hq : ∀ sid, 0 ≤ rem (sid, product) →
      0 ≤ roundQty pr sid ∧ roundQty pr sid ≤ rem (sid, product))
    (hinv : C1Inv inst (sol, used, rem)) :
    C1Inv inst (sol ++ pr, used, decrementDemand product pr rem) := by
  obtain ⟨hnn0, hacct0⟩ := hinv
  have hnn : ∀ key, 0 ≤ rem key := hnn0
  have hacct : ∀ key : ℕ × ℕ, rem key =
      _init_remaining_demand inst key - delivered sol key.1 key.2 := hacct0
  refine ⟨?_, ?_⟩
  · intro key
    show 0 ≤ decrementDemand product pr rem key
    rw [decrementDemand_eq]
    by_cases hk : key.2 = product
    · rw [if_pos hk]
      have hkey : key = (key.1, product) := Prod.ext rfl hk
      have hd : 0 ≤ rem (key.1, product) := by
        rw [← hkey]
        exact hnn key
      have h2 := (hq key.1 hd).2
      have h3 : rem key = rem (key.1, product) := congrArg rem hkey
      linarith
    · rw [if_neg hk, sub_zero]
      exact hnn key
  · intro key
    show decrementDemand product pr rem key =
      _init_remaining_demand inst key - delivered (sol ++ pr) key.1 key.2
    rw [decrementDemand_eq, delivered_append, hacct key,
      delivered_pure product pr hpure key.1 key.2]
    ring

/-- A round either leaves the state alone or appends the round's routes and
decrements the demand by them. -/
theorem roundStep_cases (inst : MPVRPCCInstance) (dist : DistFn)
    (oracle : Oracle)
    (acc : List CompleteRoute × List ℕ × (ℕ × ℕ → ℚ)) (product : ℕ) :
    roundStep inst dist oracle acc product = acc ∨
    roundStep inst dist oracle acc product =
      (acc.1 ++ _solve_vrp_for_product inst dist oracle product
          (stations_needing inst product acc.2.2)
          (depots_supplying inst product) acc.2.2 acc.2.1,
        acc.2.1,
        decrementDemand product
          (_solve_vrp_for_product inst dist oracle product
            (stations_needing inst product acc.2.2)
            (depots_supplying inst product) acc.2.2 acc.2.1) acc.2.2) := by
  unfold roundStep
  by_cases h1 : stations_needing inst product acc.2.2 = []
  · rw [if_pos h1]
    exact Or.inl rfl
  · rw [if_neg h1]
    by_cases h2 : depots_supplying inst product = []
    · rw [if_pos h2]
      exact Or.inl rfl
    · rw [if_neg h2]
      exact Or.inr rfl

theorem roundStep_inv (inst : MPVRPCCInstance) (dist : DistFn)
    (oracle : Oracle) (product : ℕ)
    (acc : List CompleteRoute × List ℕ × (ℕ × ℕ → ℚ))
    (horacle : OracleOk oracle)
    (htr : (inst.trucks.map Truck.id).Nodup)
    (hinv : C1Inv inst acc) :
    C1Inv inst (roundStep inst dist oracle acc product) := by
  obtain ⟨sol, used, rem⟩ := acc
  rcases roundStep_cases inst dist oracle (sol, used, rem) product
      with h | h
  · rw [h]
    exact hinv
  · rw [h]
    refine C1Inv_step inst sol used rem product _ ?_ ?_ hinv
    · intro r hr
      obtain ⟨t, _, mini, hone, hprod, _⟩ := solve_vrp_shape inst dist
        oracle product _ _ rem used r hr
      exact ⟨mini, hone, hprod⟩
    · intro sid hd
      exact solve_vrp_roundQty inst dist oracle product _ _ rem used sid
        horacle htr hd

theorem runRounds_inv (inst : MPVRPCCInstance) (dist : DistFn)
    (oracle : Oracle) (horacle : OracleOk oracle)
    (htr : (inst.trucks.map Truck.id).Nodup)
    (hdem : ∀ s ∈ inst.stations, ∀ pq ∈ s.demand, 0 ≤ pq.2) :
    ∀ products, C1Inv inst (runRounds inst dist oracle products) := by
  suffices h : ∀ (l : List ℕ)
      (acc : List CompleteRoute × List ℕ × (ℕ × ℕ → ℚ)),
      C1Inv inst acc →
      C1Inv inst (l.foldl (roundStep inst dist oracle) acc) by
    intro products
    refine h products ([], [], _init_remaining_demand inst)
      ⟨init_nonneg inst hdem, ?_⟩
    intro key
    show _init_remaining_demand inst key =
      _init_remaining_demand inst key - delivered [] key.1 key.2
    rw [delivered_nil, sub_zero]
  intro l
  induction l with
  | nil =>
    intro acc hacc
    exact hacc
  | cons p ps ih =>
    intro acc hacc
    rw [List.foldl_cons]
    exact ih _ (roundStep_inv inst dist oracle p acc horacle htr hacc)

/-- The oracle that always reports failure: every round falls back to the
greedy assigner (the code path taken when OR-Tools finds no solution). -/
def noOracle : Oracle := fun _ _ _ _ _ => none

/-- **C1** (Demand conservation).  Under the routing model's contract that
a successful oracle answer visits each station at most once across its
vehicles, with distinct truck ids, distinct station ids and non-negative
declared demands: (1) after every prefix of rounds, each remaining-demand
entry is non-negative and equals the initial demand minus everything
delivered so far — so remaining demand never goes negative during the run;
(2) for every station/product pair with declared demand `D = dget demand
p`, the total delivered across all routes of the full run is ≤ D; (3)
station selection (`stations_needing`) only ever picks pairs with strictly
positive remaining demand, so a pair that has reached exactly 0 is excluded
from selection in every later round. -/
theorem C1_demand_conservation (inst : MPVRPCCInstance) (dist : DistFn)
    (oracle : Oracle) (horacle : OracleOk oracle)
    (htr : (inst.trucks.map Truck.id).Nodup)
    (hsids : (inst.stations.map Station.id).Nodup)
    (hdem : ∀ s ∈ inst.stations, ∀ pq ∈ s.demand, 0 ≤ pq.2) :
    (∀ products : List ℕ, ∀ key : ℕ × ℕ,
      0 ≤ (runRounds inst dist oracle products).2.2 key ∧
      (runRounds inst dist oracle products).2.2 key =
        _init_remaining_demand inst key -
          delivered (runRounds inst dist oracle products).1 key.1 key.2) ∧
    (∀ s ∈ inst.stations, (s.demand.map Prod.fst).Nodup →
      ∀ p, delivered (solve inst dist oracle) s.id p ≤ dget s.demand p) ∧
    (∀ (product : ℕ) (rem2 : ℕ × ℕ → ℚ),
      ∀ s ∈ stations_needing inst product rem2,
        0 < rem2 (s.id, product)) := by
  have hmain : ∀ products, C1Inv inst (runRounds inst dist oracle products)
    := runRounds_inv inst dist oracle horacle htr hdem
  refine ⟨?_, ?_, ?_⟩
  · intro products key
    exact ⟨(hmain products).1 key, (hmain products).2 key⟩
  · intro s hs hkeys p
    have h1 := (hmain ((productsOf inst).mergeSort
      (fun a b => a ≤ b))).1 (s.id, p)
    have h2 : (runRounds inst dist oracle ((productsOf inst).mergeSort
        (fun a b => a ≤ b))).2.2 (s.id, p) =
        _init_remaining_demand inst (s.id, p) -
          delivered (runRounds inst dist oracle ((productsOf inst).mergeSort
            (fun a b => a ≤ b))).1 s.id p :=
      (hmain ((productsOf inst).mergeSort (fun a b => a ≤ b))).2 (s.id, p)
    rw [init_eq_dget inst hs hsids hkeys p] at h2
    have h3 : delivered (solve inst dist oracle) s.id p =
        delivered (runRounds inst dist oracle ((productsOf inst).mergeSort
          (fun a b => a ≤ b))).1 s.id p := rfl
    rw [h3]
    linarith
  · intro product rem2 s hs
    simpa using (List.mem_filter.mp hs).2

/-- Witness for C1: the no-answer oracle on the sample instance, after the
single round for product 0. -/
theorem C1_demand_conservation_witness :
    0 ≤ (runRounds sampleInstance wDist noOracle [0]).2.2 (1, 0) ∧
      (runRounds sampleInstance wDist noOracle [0]).2.2 (1, 0) =
        _init_remaining_demand sampleInstance (1, 0) -
          delivered (runRounds sampleInstance wDist noOracle [0]).1 1 0 :=
  (C1_demand_conservation sampleInstance wDist noOracle
    (fun _ _ _ _ _ _ h => Option.noConfusion h) (by decide) (by decide)
    (by decide)).1 [0] (1, 0)

/-- The single route the solver produces on the sample instance when the
oracle reports failure every round. -/
def wSolvedRoute : CompleteRoute :=
  { truck_id := 1, garage_id := 1,
    mini_routes := [{ depot_id := 1, product_id := 0,
                      load_quantity := 40, stations := [(1, 40)] }],
    total_distance := 0, total_changeover_cost := 0, total_cost := 0 }

/-- The sample instance's station, depot and truck, as named literals. -/
def sStation : Station :=
  { id := 1, location := { id := 1, x := 3, y := 0 }, demand := [(0, 40)] }

def sDepot : Depot :=
  { id := 1, location := { id := 1, x := 3, y := 4 }, stock := [(0, 100)] }

def sTruck : Truck := { id := 1, capacity := 50, garage_id := 1 }

/-- One step of the greedy loop when the scan reports a best pair. -/
theorem greedyLoop_step (dist : DistFn) (product : ℕ)
    (stations : List Station) (trucks : List Truck) (depot : Depot)
    (rem : ℕ × ℕ → ℚ) (u0 : ℕ) (urest : List ℕ)
    (routes : ℕ → List Station) (load : ℕ → ℚ) (tid : ℕ) (stn : Station)
    (hb : (greedyScan dist product stations trucks depot rem load
      (u0 :: urest)).best = some (tid, stn)) :
    greedyLoop dist product stations trucks depot rem (u0 :: urest)
      routes load =
    greedyLoop dist product stations trucks depot rem
      (((greedyScan dist product stations trucks depot rem load
          (u0 :: urest)).unvisited).erase stn.id)
      (fun k => if k = tid then routes tid ++ [stn] else routes k)
      (fun k => if k = tid then load tid + rem (stn.id, product)
                else load k) := by
  rw [greedyLoop]
  split
  next ts2 heq =>
    rw [hb] at heq
    have h2 := Option.some.inj heq
    rw [← h2]
  next heq =>
    rw [hb] at heq
    exact Option.noConfusion heq

theorem greedyLoop_nil (dist : DistFn) (product : ℕ)
    (stations : List Station) (trucks : List Truck) (depot : Depot)
    (rem : ℕ × ℕ → ℚ) (routes : ℕ → List Station) (load : ℕ → ℚ) :
    greedyLoop dist product stations trucks depot rem [] routes load =
      (routes, load) := by
  rw [greedyLoop]

/-- The initial demand dict of the sample instance is a single update. -/
theorem wRem2 : _init_remaining_demand sampleInstance =
    updateFn (fun _ => 0) (1, 0) 40 := rfl

def sMini : MiniRoute :=
  { depot_id := 1, product_id := 0, load_quantity := 40,
    stations := [(1, 40)] }

theorem wGreedyVal :
    (greedyLoop wDist 0 [sStation] [sTruck] sDepot
      (updateFn (fun _ => 0) (1, 0) 40) ([sStation.id].dedup)
      (fun _ => []) (fun _ => 0)).1 sTruck.id = [sStation] := by
  have hbest : (greedyScan wDist 0 [sStation] [sTruck] sDepot
      (updateFn (fun _ => 0) (1, 0) 40) (fun _ => 0)
      [sStation.id]).best = some (sTruck.id, sStation) := by
    norm_num [greedyScan, scanStation, wDist, sStation, sTruck, sDepot,
      updateFn]
  have hunv : ((greedyScan wDist 0 [sStation] [sTruck] sDepot
      (updateFn (fun _ => 0) (1, 0) 40) (fun _ => 0)
      [sStation.id]).unvisited).erase sStation.id = ([] : List ℕ) := by
    norm_num [greedyScan, scanStation, wDist, sStation, sTruck, sDepot,
      updateFn, List.erase_cons_head]
  rw [(by rfl : ([sStation.id] : List ℕ).dedup = [sStation.id]),
    greedyLoop_step wDist 0 [sStation] [sTruck] sDepot
      (updateFn (fun _ => 0) (1, 0) 40) sStation.id [] (fun _ => [])
      (fun _ => 0) sTruck.id sStation hbest,
    hunv, greedyLoop_nil]
  simp

theorem wBuildRoutes :
    buildRoutes sampleInstance wDist sDepot 0
      (updateFn (fun _ => 0) (1, 0) 40) [(sTruck, [sStation])] =
      [wSolvedRoute] := by
  have hmini : _build_mini_route wDist sTruck sDepot 0 [sStation]
      (updateFn (fun _ => 0) (1, 0) 40) = some sMini := by
    norm_num [_build_mini_route, serveLoop, pyMin, wDist, sStation,
      sTruck, sDepot, updateFn, dget, min_def, sMini,
      List.erase_cons_head]
  have hroute : _build_complete_route sampleInstance wDist sTruck sDepot 0
      [sStation] (updateFn (fun _ => 0) (1, 0) 40) = wSolvedRoute := by
    unfold _build_complete_route
    rw [hmini]
    norm_num [_calculate_route_distance, _calculate_changeover_cost,
      get_changeover_cost, wDist, sMini, sTruck, sampleInstance,
      wSolvedRoute]
  unfold buildRoutes
  rw [List.filterMap_cons]
  norm_num [hroute, wSolvedRoute]

theorem wSolve : solve sampleInstance wDist noOracle = [wSolvedRoute] := by
  have hp : (productsOf sampleInstance).mergeSort (fun a b => a ≤ b) =
      [0] := by
    have h : productsOf sampleInstance = [0] := by decide
    rw [h]
    simp
  show (runRounds sampleInstance wDist noOracle
    ((productsOf sampleInstance).mergeSort (fun a b => a ≤ b))).1 =
    [wSolvedRoute]
  rw [hp]
  show (roundStep sampleInstance wDist noOracle
    ([], [], _init_remaining_demand sampleInstance) 0).1 = [wSolvedRoute]
  simp only [roundStep]
  rw [if_neg (by decide :
      ¬(stations_needing sampleInstance 0
          (_init_remaining_demand sampleInstance) = [])),
    if_neg (by decide : ¬(depots_supplying sampleInstance 0 = []))]
  show _solve_vrp_for_product sampleInstance wDist noOracle 0
      (stations_needing sampleInstance 0
        (_init_remaining_demand sampleInstance))
      (depots_supplying sampleInstance 0)
      (_init_remaining_demand sampleInstance) [] = [wSolvedRoute]
  rw [(by decide : stations_needing sampleInstance 0
        (_init_remaining_demand sampleInstance) = [sStation]),
    (by decide : depots_supplying sampleInstance 0 = [sDepot]),
    solve_vrp_eq,
    if_neg (by decide : ¬(availableTrucks sampleInstance [] = []))]
  show _assign_stations_greedy sampleInstance wDist 0 [sStation]
      (availableTrucks sampleInstance []) sDepot
      (_init_remaining_demand sampleInstance) = [wSolvedRoute]
  rw [(by decide : availableTrucks sampleInstance [] = [sTruck]),
    greedy_eq_buildRoutes, wRem2]
  simp only [List.map_cons, List.map_nil]
  rw [wGreedyVal]
  exact wBuildRoutes

/-- Witness for C10: the produced route of the sample run wraps one
mini-route costed from the truck's initial product. -/
theorem C10_changeover_baseline_witness :
    ∃ t ∈ sampleInstance.trucks, ∃ mini,
      wSolvedRoute.mini_routes = [mini] ∧
      wSolvedRoute.truck_id = t.id ∧
      wSolvedRoute.garage_id = t.garage_id ∧
      wSolvedRoute.total_changeover_cost =
        get_changeover_cost sampleInstance t.initial_product
          mini.product_id :=
  C10_changeover_baseline sampleInstance wDist noOracle wSolvedRoute
    (by rw [wSolve]; exact List.mem_cons_self _ _)

/-- Witness for C6 on the sample instance (garage 1 and station 1). -/
theorem C6_distance_symm_cache_witness :
    ∃ c1, distance sampleInstance [] .garage 1 .station 1 =
        .ok (euclid { id := 1, x := 0, y := 0 }
               { id := 1, x := 3, y := 0 }, c1)
      ∧ distance sampleInstance c1 .station 1 .garage 1 =
          .ok (euclid { id := 1, x := 0, y := 0 }
                 { id := 1, x := 3, y := 0 }, c1)
      ∧ distance sampleInstance c1 .garage 1 .station 1 =
          .ok (euclid { id := 1, x := 0, y := 0 }
                 { id := 1, x := 3, y := 0 }, c1)
      ∧ euclid { id := 1, x := 0, y := 0 } { id := 1, x := 3, y := 0 } =
          euclid { id := 1, x := 3, y := 0 } { id := 1, x := 0, y := 0 } :=
  C6_distance_symm_cache sampleInstance .garage 1 .station 1 _ _ rfl rfl

end MPVRPCC
